import Mathlib

/-
  Verification development for the EdOpt chat widget (src/static/widget.js).

  The widget is embedded shallowly:
  * renderMarkdown is modelled as a pipeline of character-list scanners, one per
    sequential regex substitution of the source, in the same order;
  * the session store (getSession / saveSession) is modelled over an explicit
    StoredValue datatype standing for the localStorage entry;
  * the async handlers (fetchGreeting, sendMessage, togglePanel) are modelled as
    pure state transformers over a WidgetState record, parameterised by the
    outcome of the network call they await.
-/

namespace Edopt

/-! ## Basic character-list utilities -/

/-- Boolean prefix test on character lists. -/
def pref : List Char → List Char → Bool
  | [], _ => true
  | _ :: _, [] => false
  | p :: ps, c :: cs => p == c && pref ps cs

/-- Line terminators recognised by JavaScript regex `^` and `$` in multiline
mode, and excluded by the `.` character class. -/
def isLineTerm (c : Char) : Bool :=
  c == '\n' || c == '\r' || c == '\u2028' || c == '\u2029'

/-- The JavaScript whitespace set removed by String.prototype.trim. -/
def isJsSpace (c : Char) : Bool :=
  [' ', '\t', '\n', '\u000B', '\u000C', '\r', '\u00A0', '\u1680', '\u2000',
   '\u2001', '\u2002', '\u2003', '\u2004', '\u2005', '\u2006', '\u2007',
   '\u2008', '\u2009', '\u200A', '\u2028', '\u2029', '\u202F', '\u205F',
   '\u3000', '\uFEFF'].contains c

/-- JavaScript String.prototype.trim on a character list. -/
def jsTrim (s : List Char) : List Char :=
  ((s.dropWhile isJsSpace).reverse.dropWhile isJsSpace).reverse

/-- JavaScript String.prototype.trim on a string. -/
def jsTrimStr (s : String) : String :=
  String.mk (jsTrim s.data)

/-! ## HTML escaping: the first three substitutions of renderMarkdown -/

/-- Substitution for the regex replacing every ampersand with the amp entity. -/
def escAmp : List Char → List Char
  | [] => []
  | c :: cs => if c = '&' then "&amp;".data ++ escAmp cs else c :: escAmp cs

/-- Substitution for the regex replacing every less-than sign with the lt entity. -/
def escLt : List Char → List Char
  | [] => []
  | c :: cs => if c = '<' then "&lt;".data ++ escLt cs else c :: escLt cs

/-- Substitution for the regex replacing every greater-than sign with the gt entity. -/
def escGt : List Char → List Char
  | [] => []
  | c :: cs => if c = '>' then "&gt;".data ++ escGt cs else c :: escGt cs

/-! ## Line-based substitutions: headers and list items

The source applies `replace` with patterns anchored by `^` and `$` under the
`gm` flags.  Such a substitution acts independently on each line, where lines
are the segments between line terminators. -/

/-- Split off the first line: returns the maximal terminator-free segment and
the rest of the input (which, when nonempty, starts with a terminator). -/
def breakAtTerm : List Char → List Char × List Char
  | [] => ([], [])
  | c :: cs =>
    if isLineTerm c then ([], c :: cs)
    else
      let p := breakAtTerm cs
      (c :: p.1, p.2)

/-- Apply a line transformer to every line, keeping the terminators.  The fuel
argument bounds the number of lines; callers pass the input length plus one,
which always suffices since each step consumes at least one character. -/
def mapLinesF (g : List Char → List Char) : Nat → List Char → List Char
  | 0, s => s
  | f + 1, s =>
    match breakAtTerm s with
    | (line, []) => g line
    | (line, t :: rest) => g line ++ t :: mapLinesF g f rest

/-- One line under a pattern of the shape marker-then-one-or-more-chars, with
the matched tail wrapped in the given opening and closing tags (the `$1`
replacement of the source).  The one-or-more requirement of `.+` is the length
condition. -/
def headerLine (mark opn cls : List Char) (line : List Char) : List Char :=
  if pref mark line = true ∧ mark.length < line.length then
    opn ++ List.drop mark.length line ++ cls
  else line

/-- The h3 header substitution. -/
def h3Stage (s : List Char) : List Char :=
  mapLinesF (headerLine "### ".data "<h3>".data "</h3>".data) (s.length + 1) s

/-- The h2 header substitution. -/
def h2Stage (s : List Char) : List Char :=
  mapLinesF (headerLine "## ".data "<h2>".data "</h2>".data) (s.length + 1) s

/-- The h1 header substitution. -/
def h1Stage (s : List Char) : List Char :=
  mapLinesF (headerLine "# ".data "<h1>".data "</h1>".data) (s.length + 1) s

/-- The unordered-list item substitution marking each dash line as an li element. -/
def liStage (s : List Char) : List Char :=
  mapLinesF (headerLine "- ".data "<li>".data "</li>".data) (s.length + 1) s

/-! ## Emphasis: the lazy dot-capture substitutions -/

/-- Lazy extension of a `.+?` capture: the accumulator already holds at least
one captured character (reversed); before each further character the closing
delimiter is tried.  Characters excluded by the dot class (line terminators)
abort the match. -/
def dotCapture (close : List Char) (acc : List Char) : List Char → Option (List Char × List Char)
  | [] => if pref close [] then some (acc.reverse, []) else none
  | c :: cs =>
    if pref close (c :: cs) then some (acc.reverse, List.drop close.length (c :: cs))
    else if isLineTerm c then none
    else dotCapture close (c :: acc) cs

/-- Match `.+?` followed by the closing delimiter: take one mandatory
non-terminator character, then extend lazily. -/
def dotLazyClose (close : List Char) : List Char → Option (List Char × List Char)
  | [] => none
  | c :: cs => if isLineTerm c then none else dotCapture close [c] cs

/-- Global replacement for a pattern of the shape open-delimiter, lazy dot
capture, close-delimiter, replaced by pre ++ capture ++ post.  On a failed
match attempt the scan advances one character, as the regex engine does.  The
fuel bounds the recursion; callers pass the input length. -/
def starsF (opn cls pre post : List Char) : Nat → List Char → List Char
  | 0, s => s
  | _ + 1, [] => []
  | f + 1, c :: cs =>
    if pref opn (c :: cs) then
      match dotLazyClose cls (List.drop opn.length (c :: cs)) with
      | some (cap, rest) => pre ++ cap ++ post ++ starsF opn cls pre post f rest
      | none => c :: starsF opn cls pre post f cs
    else c :: starsF opn cls pre post f cs

/-- The bold-italic substitution (triple stars). -/
def boldItalicStage (s : List Char) : List Char :=
  starsF "***".data "***".data "<strong><em>".data "</em></strong>".data s.length s

/-- The bold substitution (double stars). -/
def boldStage (s : List Char) : List Char :=
  starsF "**".data "**".data "<strong>".data "</strong>".data s.length s

/-- The italic substitution (single stars). -/
def emStage (s : List Char) : List Char :=
  starsF "*".data "*".data "<em>".data "</em>".data s.length s

/-! ## Links and inline code: greedy negated-class captures -/

/-- Continue a one-or-more negated-class capture, stopping at the excluded
character, which is consumed as the following literal of the pattern. -/
def classScan (bad : Char) (acc : List Char) : List Char → Option (List Char × List Char)
  | [] => none
  | c :: cs => if c = bad then some (acc.reverse, cs) else classScan bad (c :: acc) cs

/-- Match a one-or-more negated-class capture followed by the excluded
character itself (as in bracketed link text or a parenthesised url). -/
def classUntil (bad : Char) : List Char → Option (List Char × List Char)
  | [] => none
  | c :: cs => if c = bad then none else classScan bad [c] cs

/-- Fixed opening emitted for a markdown link. -/
def aOpen : List Char := "<a href=\"".data

/-- Fixed middle emitted for a markdown link: closes the href attribute and
adds the new-context and no-opener-leak attributes. -/
def aMid : List Char := "\" target=\"_blank\" rel=\"noopener\">".data

/-- Fixed closing emitted for a markdown link. -/
def aClose : List Char := "</a>".data

/-- Attempt the tail of a link match after the opening bracket: one-or-more
non-bracket characters, a closing bracket, an opening parenthesis, one-or-more
non-parenthesis characters, a closing parenthesis.  Returns the text, the url
and the remainder. -/
def linkTry (cs : List Char) : Option (List Char × List Char × List Char) :=
  match classUntil ']' cs with
  | some (txt, r1) =>
    match r1 with
    | x :: r2 =>
      if x = '(' then
        match classUntil ')' r2 with
        | some (url, r3) => some (txt, url, r3)
        | none => none
      else none
    | [] => none
  | none => none

/-- Global replacement of markdown links, replaced by the anchor element with
the url and text substituted. -/
def linkF : Nat → List Char → List Char
  | 0, s => s
  | _ + 1, [] => []
  | f + 1, c :: cs =>
    if c = '[' then
      match linkTry cs with
      | some (txt, url, r3) =>
        aOpen ++ url ++ aMid ++ txt ++ aClose ++ linkF f r3
      | none => c :: linkF f cs
    else c :: linkF f cs

/-- The link substitution. -/
def linkStage (s : List Char) : List Char :=
  linkF s.length s

/-- Global replacement of inline code spans: a backtick, one-or-more
non-backtick characters, a backtick, wrapped in a code element. -/
def codeF : Nat → List Char → List Char
  | 0, s => s
  | _ + 1, [] => []
  | f + 1, c :: cs =>
    if c = '\u0060' then
      match classUntil '\u0060' cs with
      | some (code, r) => "<code>".data ++ code ++ "</code>".data ++ codeF f r
      | none => c :: codeF f cs
    else c :: codeF f cs

/-- The inline-code substitution. -/
def codeStage (s : List Char) : List Char :=
  codeF s.length s

/-! ## Paragraph and line breaks -/

/-- Global replacement of a blank line (two newline characters) with a
paragraph break. -/
def brkParaF : Nat → List Char → List Char
  | 0, s => s
  | _ + 1, [] => []
  | f + 1, c :: cs =>
    if pref ['\n', '\n'] (c :: cs) then "</p><p>".data ++ brkParaF f (List.drop 1 cs)
    else c :: brkParaF f cs

/-- The paragraph-break substitution. -/
def brkParaStage (s : List Char) : List Char :=
  brkParaF s.length s

/-- Global replacement of each remaining newline with a br element. -/
def brNl : List Char → List Char
  | [] => []
  | c :: cs => if c = '\n' then "<br>".data ++ brNl cs else c :: brNl cs

/-! ## The two list-grouping passes -/

/-- The first list pass of the source replaces every match by the result of a
callback that returns the match itself, so it is the identity on the string. -/
def liPassOne (s : List Char) : List Char := s

/-- The li opening token. -/
def liOpenT : List Char := "<li>".data

/-- The li closing token. -/
def liCloseT : List Char := "</li>".data

/-- The br token. -/
def brT : List Char := "<br>".data

/-- The combined token of a br element directly followed by an li opening. -/
def brLiT : List Char := "<br><li>".data

/-- Split at the first occurrence of a token: the part before it and the part
after it. -/
def splitAtFirst (tok : List Char) : List Char → Option (List Char × List Char)
  | [] => none
  | c :: cs =>
    if pref tok (c :: cs) then some ([], List.drop tok.length (c :: cs))
    else
      match splitAtFirst tok cs with
      | some (b, a) => some (c :: b, a)
      | none => none

/-- Consume one optional leading br token (the trailing optional group of the
second list pass). -/
def dropBr (r : List Char) : List Char :=
  if pref brT r then List.drop 4 r else r

/-- The second list pass: an optional br, an li element captured lazily through
its closing tag, an optional br; replaced by the captured li element alone,
removing the surrounding br tokens. -/
def stripBrLiF : Nat → List Char → List Char
  | 0, s => s
  | _ + 1, [] => []
  | f + 1, c :: cs =>
    if pref brLiT (c :: cs) then
      match splitAtFirst liCloseT (List.drop 7 cs) with
      | some (inner, rest) => liOpenT ++ inner ++ liCloseT ++ stripBrLiF f (dropBr rest)
      | none => c :: stripBrLiF f cs
    else if pref liOpenT (c :: cs) then
      match splitAtFirst liCloseT (List.drop 3 cs) with
      | some (inner, rest) => liOpenT ++ inner ++ liCloseT ++ stripBrLiF f (dropBr rest)
      | none => c :: stripBrLiF f cs
    else c :: stripBrLiF f cs

/-- The second list pass at its standard fuel. -/
def stripBrLiStage (s : List Char) : List Char :=
  stripBrLiF s.length s

/-! ## The split-and-group pass -/

/-- Tokens of the split on li opening and closing tags: the source splits the
string with a capturing alternation, so separators appear in the entry list
between the (possibly empty) text entries. -/
inductive LiTok where
  | openLi : LiTok
  | closeLi : LiTok
  | text : List Char → LiTok
deriving DecidableEq, Repr

/-- Tokenizer mirroring the capturing split: scans for li opening and closing
tags, emitting the text between them. -/
def tokenizeF : Nat → List Char → List Char → List LiTok
  | 0, acc, s => [.text (acc.reverse ++ s)]
  | _ + 1, acc, [] => [.text acc.reverse]
  | f + 1, acc, c :: cs =>
    if pref liOpenT (c :: cs) then
      .text acc.reverse :: .openLi :: tokenizeF f [] (List.drop 3 cs)
    else if pref liCloseT (c :: cs) then
      .text acc.reverse :: .closeLi :: tokenizeF f [] (List.drop 4 cs)
    else tokenizeF f (c :: acc) cs

/-- Global removal of br tokens, as the lookahead of the grouping loop performs
on each entry before trimming. -/
def removeBr : List Char → List Char
  | '<' :: 'b' :: 'r' :: '>' :: cs => removeBr cs
  | c :: cs => c :: removeBr cs
  | [] => []

/-- The lookahead of the grouping loop: walk the remaining entries; an entry
whose br-stripped trim equals the li opening tag means the list continues; a
nonempty other entry ends it; empty entries are skipped. -/
def nextIsLi : List LiTok → Bool
  | [] => false
  | .openLi :: _ => true
  | .closeLi :: _ => false
  | .text s :: rest =>
    let t := jsTrim (removeBr s)
    if t = liOpenT then true
    else if t = [] then nextIsLi rest
    else false

/-- The grouping loop: opens a ul container before an li opening when not
already inside a list, and closes it after an li closing whose lookahead finds
no further li item. -/
def groupF : Bool → List LiTok → List Char
  | inL, [] => if inL then "</ul>".data else []
  | inL, .openLi :: rest =>
    (if inL then [] else "<ul>".data) ++ liOpenT ++ groupF true rest
  | inL, .closeLi :: rest =>
    liCloseT ++
      (if nextIsLi rest = false ∧ inL = true then "</ul>".data ++ groupF false rest
       else groupF inL rest)
  | inL, .text s :: rest => s ++ groupF inL rest

/-! ## The full renderer -/

/-- The renderMarkdown pipeline on a nonempty character list, in the exact
substitution order of the source. -/
def mdPipeline (s : List Char) : List Char :=
  let e := escGt (escLt (escAmp s))
  let h := h1Stage (h2Stage (h3Stage e))
  let em := emStage (boldStage (boldItalicStage h))
  let lk := codeStage (linkStage em)
  let li := liStage lk
  let br := brNl (brkParaStage li)
  let sb := stripBrLiStage (liPassOne br)
  groupF false (tokenizeF (sb.length + 1) [] sb)

/-- renderMarkdown: falsy input returns the empty string with no paragraph
wrapper; otherwise the pipeline result is wrapped in a paragraph container. -/
def renderMarkdown (text : String) : String :=
  if text = "" then ""
  else String.mk ("<p>".data ++ mdPipeline text.data ++ "</p>".data)

/-- renderMarkdown on a possibly-null argument: null (or undefined) is falsy
and returns the empty string. -/
def renderMarkdownNullable : Option String → String
  | none => ""
  | some t => renderMarkdown t

/-! ## Session store -/

/-- The session payload parsed from storage: the id field may be absent. -/
structure SessionData where
  id : Option String
  ts : Int
deriving DecidableEq, Repr

/-- The state of the single localStorage entry: missing (getItem returns
null), malformed (the JSON parse throws, or yields a falsy value or a value
without a usable numeric timestamp), or a parsed payload. -/
inductive StoredValue where
  | missing : StoredValue
  | malformed : StoredValue
  | valid : SessionData → StoredValue
deriving DecidableEq, Repr

/-- The 24-hour freshness window, in milliseconds. -/
def SESSION_TTL : Int := 24 * 60 * 60 * 1000

/-- getSession: read and parse the stored value; return the stored id when the
payload is fresh, absent otherwise.  Parse failures are caught and fall
through to absent.  The store is never written. -/
def getSession : StoredValue → Int → Option String
  | .valid d, now => if now - d.ts < SESSION_TTL then d.id else none
  | _, _ => none

/-- getSession paired with the (unchanged) store, making the absence of any
deletion explicit. -/
def getSessionStep (st : StoredValue) (now : Int) : Option String × StoredValue :=
  (getSession st now, st)

/-- saveSession: write the id with the current timestamp; a storage failure is
swallowed and leaves the entry as it was. -/
def saveSessionAttempt (writeOk : Bool) (id : Option String) (now : Int)
    (old : StoredValue) : StoredValue :=
  if writeOk then .valid ⟨id, now⟩ else old

/-! ## Widget state and handlers -/

/-- Message roles. -/
inductive Role where
  | user : Role
  | assistant : Role
deriving DecidableEq, Repr

/-- A rendered chat message.  The content is optional because a response body
may lack the answer field, in which case the undefined value reaches
addMessage. -/
structure Message where
  content : Option String
  role : Role
deriving DecidableEq, Repr

/-- A parsed JSON response body of the greet or chat endpoint; either field may
be absent. -/
structure RespBody where
  session_id : Option String
  answer : Option String
deriving DecidableEq, Repr

/-- The outcome of an awaited fetch: the promise rejects on a network error;
otherwise a response arrives with a success flag (the ok property) and a body
that either parses as JSON or does not. -/
inductive FetchOutcome where
  | networkError : FetchOutcome
  | response : Bool → Option RespBody → FetchOutcome
deriving DecidableEq, Repr

/-- The widget state: the module-level mutable variables, the message list as
rendered in the DOM, the typing indicator, the input field, the send button
disabled flag, the input focus, and the storage entry. -/
structure WidgetState where
  sessionId : Option String
  isOpen : Bool
  isLoading : Bool
  hasGreeted : Bool
  messages : List Message
  typingShown : Bool
  inputValue : String
  sendDisabled : Bool
  inputFocused : Bool
  stored : StoredValue
deriving DecidableEq, Repr

/-- addMessage appends a message to the message list (assistant content is
rendered through renderMarkdown at display time, user content is inserted as
text). -/
def addMessage (st : WidgetState) (content : Option String) (r : Role) : WidgetState :=
  { st with messages := st.messages ++ [⟨content, r⟩] }

/-- The fixed fallback welcome message of fetchGreeting. -/
def greetFallback : String :=
  "Welcome! I\u0027m the EdOpt Assistant. How can I help you explore education options in New Hampshire?"

/-- The fixed fallback error message of sendMessage. -/
def chatFallback : String :=
  "I\u0027m sorry, I\u0027m having trouble right now. Please try again in a moment."

/-- The synchronous prefix of fetchGreeting, run before the network call: the
greeted flag is set and the typing indicator shown. -/
def greetStart (st : WidgetState) : WidgetState :=
  { st with hasGreeted := true, typingShown := true }

/-- The continuation of fetchGreeting after the awaited fetch.  The response
ok flag is not inspected: only a rejected fetch or a failing JSON parse
reaches the catch block with its fixed fallback welcome message. -/
def greetResolve (st : WidgetState) (now : Int) (writeOk : Bool)
    (r : FetchOutcome) : WidgetState :=
  match r with
  | .networkError =>
    addMessage { st with typingShown := false } (some greetFallback) .assistant
  | .response _ body =>
    match body with
    | none =>
      addMessage { st with typingShown := false } (some greetFallback) .assistant
    | some data =>
      let st2 := { st with
        sessionId := data.session_id,
        stored := saveSessionAttempt writeOk data.session_id now st.stored }
      addMessage { st2 with typingShown := false } data.answer .assistant

/-- fetchGreeting as a whole: the synchronous prefix followed by the resolved
continuation. -/
def fetchGreeting (st : WidgetState) (now : Int) (writeOk : Bool)
    (r : FetchOutcome) : WidgetState :=
  greetResolve (greetStart st) now writeOk r

/-- JavaScript falsiness of the session id variable: null, undefined and the
empty string are falsy. -/
def jsFalsyStr : Option String → Bool
  | none => true
  | some s => s == ""

/-- A chat request as posted to the chat endpoint. -/
structure ChatRequest where
  message : String
  session_id : Option String
deriving DecidableEq, Repr

/-- sendMessage, returning the new state and the list of requests issued.  The
guard returns immediately on a blank trimmed input or while a prior send is
loading.  Otherwise: render the user message, clear the input, restore a
persisted session when the held one is falsy, set loading, disable the send
button, show typing, and post.  A non-success response is thrown into the
catch block, as is a failing JSON parse or network error; the catch renders
the fixed fallback.  The finally block clears loading, re-enables the button
and focuses the input in every case. -/
def sendMessage (st : WidgetState) (now : Int) (writeOk : Bool)
    (r : FetchOutcome) : WidgetState × List ChatRequest :=
  let message := jsTrimStr st.inputValue
  if message = "" ∨ st.isLoading = true then (st, [])
  else
    let st1 := addMessage { st with inputValue := "" } (some message) .user
    let sid := if jsFalsyStr st1.sessionId then getSession st1.stored now else st1.sessionId
    let st2 := { st1 with
      sessionId := sid, isLoading := true, sendDisabled := true, typingShown := true }
    let st3 :=
      match r with
      | .networkError =>
        addMessage { st2 with typingShown := false } (some chatFallback) .assistant
      | .response ok body =>
        if ok = false then
          addMessage { st2 with typingShown := false } (some chatFallback) .assistant
        else
          match body with
          | none =>
            addMessage { st2 with typingShown := false } (some chatFallback) .assistant
          | some data =>
            let st4 := { st2 with
              sessionId := data.session_id,
              stored := saveSessionAttempt writeOk data.session_id now st2.stored }
            addMessage { st4 with typingShown := false } data.answer .assistant
    ({ st3 with isLoading := false, sendDisabled := false, inputFocused := true },
     [⟨message, sid⟩])

/-- togglePanel, returning the new state and the number of greeting requests
issued: the open flag is flipped; on opening, the greeting is fetched when the
greeted flag is unset (its synchronous prefix runs at once, so the request
count is one) and the input is focused. -/
def togglePanel (st : WidgetState) : WidgetState × Nat :=
  if st.isOpen = false then
    let st1 := { st with isOpen := true }
    if st1.hasGreeted = true then ({ st1 with inputFocused := true }, 0)
    else ({ greetStart st1 with inputFocused := true }, 1)
  else ({ st with isOpen := false }, 0)

/-- External events driving the widget: a panel toggle, the resolution of an
outstanding greeting fetch, and a complete send interaction. -/
inductive WEvent where
  | toggle : WEvent
  | greetFinish : Int → Bool → FetchOutcome → WEvent
  | send : Int → Bool → FetchOutcome → WEvent
deriving DecidableEq, Repr

/-- One event step, returning the new state and the number of greeting
requests the step issues. -/
def step (st : WidgetState) : WEvent → WidgetState × Nat
  | .toggle => togglePanel st
  | .greetFinish now writeOk r => (greetResolve st now writeOk r, 0)
  | .send now writeOk r => ((sendMessage st now writeOk r).1, 0)

/-- Run a trace of events, accumulating the number of greeting requests. -/
def runTrace (st : WidgetState) : List WEvent → WidgetState × Nat
  | [] => (st, 0)
  | e :: es =>
    let p := step st e
    let q := runTrace p.1 es
    (q.1, p.2 + q.2)

/-- The initial state built by init on page load: the session id is restored
from storage, everything else starts cleared. -/
def initState (stored : StoredValue) (now : Int) : WidgetState :=
  { sessionId := getSession stored now, isOpen := false, isLoading := false,
    hasGreeted := false, messages := [], typingShown := false, inputValue := "",
    sendDisabled := false, inputFocused := false, stored := stored }

/-- The outcomes that reach the catch block of sendMessage: a rejected fetch,
a response whose ok flag is false, or a body that fails to parse as JSON. -/
def chatFails : FetchOutcome → Bool
  | .networkError => true
  | .response ok body => !ok || body.isNone

/-- The outcomes that reach the catch block of fetchGreeting: a rejected fetch
or a body that fails to parse as JSON.  The ok flag plays no part, since
fetchGreeting never reads it. -/
def greetFails : FetchOutcome → Bool
  | .networkError => true
  | .response _ body => body.isNone

/-- A page-load state whose input field holds a nonblank message. -/
def demoSendState : WidgetState :=
  { initState .missing 0 with inputValue := "hi" }

/-- A page-load state whose input field holds only whitespace. -/
def demoBlankState : WidgetState :=
  { initState .missing 0 with inputValue := "   " }

/-! ## Well-formedness of angle brackets in renderer output

Every less-than sign in the output of the renderer is put there by one of the
substitutions, so it is followed by the text of one of the whitelisted
constructs.  The predicate angleOk states exactly this. -/

/-- The texts that may follow a less-than sign in renderer output: the heads of
the whitelisted tags (for the anchor, the fixed part up to the href value). -/
def tagHeads : List (List Char) :=
  ["h1>".data, "/h1>".data, "h2>".data, "/h2>".data, "h3>".data, "/h3>".data,
   "strong>".data, "/strong>".data, "em>".data, "/em>".data,
   "a href=\"".data, "/a>".data, "code>".data, "/code>".data,
   "li>".data, "/li>".data, "br>".data, "ul>".data, "/ul>".data,
   "p>".data, "/p>".data]

/-- Some whitelisted head starts here. -/
def headAt (s : List Char) : Bool :=
  tagHeads.any (fun h => pref h s)

/-- Every less-than sign in the list is immediately followed by a whitelisted
head: no raw tag of any other shape occurs. -/
def angleOk : List Char → Bool
  | [] => true
  | c :: cs => (if c = '<' then headAt cs else true) && angleOk cs

/-- No li opening or closing tag starts anywhere in the list: a less-than sign
is never followed by the letter l or by a slash and the letter l. -/
def liFree : List Char → Bool
  | [] => true
  | c :: cs => !(c == '<' && (pref ['l'] cs || pref ['/', 'l'] cs)) && liFree cs

/-- Characters of link text or url that no substitution of the renderer
pipeline reacts to. -/
def linkSafe (c : Char) : Bool :=
  !(['&', '<', '>', '*', '\u0060', '[', ']', '(', ')',
     '\n', '\r', '\u2028', '\u2029'].contains c)

/-! ## Occurrence counting and the shape of link-substitution output -/

/-- The number of positions at which the pattern occurs in the list. -/
def occCount (pat : List Char) : List Char → Nat
  | [] => if pref pat [] then 1 else 0
  | c :: cs => (if pref pat (c :: cs) then 1 else 0) + occCount pat cs

/-- The output of the link substitution, by construction: n anchors of the
exact fixed form — the href value, the blank-target attribute, the no-opener
rel attribute, the link text — interleaved with copied characters. -/
inductive LinkOut : Nat → List Char → Prop where
  | nil : LinkOut 0 []
  | copy (c : Char) (n : Nat) (rest : List Char) :
      LinkOut n rest → LinkOut n (c :: rest)
  | anchor (u t : List Char) (n : Nat) (rest : List Char) :
      LinkOut n rest → LinkOut (n + 1) (aOpen ++ u ++ aMid ++ t ++ aClose ++ rest)

/-- Total pattern occurrences inside the text entries of a token list. -/
def chunkOcc (pat : List Char) : List LiTok → Nat
  | [] => 0
  | .text s :: r => occCount pat s + chunkOcc pat r
  | .openLi :: r => chunkOcc pat r
  | .closeLi :: r => chunkOcc pat r

/-- The pipeline up to and including the link substitution. -/
def mdPostLink (s : List Char) : List Char :=
  linkStage (emStage (boldStage (boldItalicStage
    (h1Stage (h2Stage (h3Stage (escGt (escLt (escAmp s)))))))))

/-! # Session store and widget lifecycle: claims C1, C2, C4, C5, C6, C7, C9, C10 -/

/-- Claim C2: for every stored session payload, a fresh timestamp yields the
stored id; a stale timestamp, malformed stored data or a missing entry yields
absent; and the read never modifies (in particular never deletes) the stored
entry. -/
theorem getSession_spec :
    (∀ (i : String) (ts now : Int), now - ts < SESSION_TTL →
      getSession (.valid ⟨some i, ts⟩) now = some i)
    ∧ (∀ (d : SessionData) (now : Int), SESSION_TTL ≤ now - d.ts →
      getSession (.valid d) now = none)
    ∧ (∀ now : Int, getSession .malformed now = none)
    ∧ (∀ now : Int, getSession .missing now = none)
    ∧ (∀ (st : StoredValue) (now : Int), (getSessionStep st now).2 = st) := by
  refine ⟨?_, ?_, ?_, ?_, ?_⟩
  · intro i ts now h
    simp [getSession, h]
  · intro d now h
    have h2 : ¬ (now - d.ts < SESSION_TTL) := not_lt.mpr h
    simp [getSession, h2]
  · intro now; rfl
  · intro now; rfl
  · intro st now; rfl

/-- Witness for claim C2 at concrete inputs. -/
theorem getSession_spec_witness :
    getSession (.valid ⟨some "sid", 0⟩) 5 = some "sid"
    ∧ getSession (.valid ⟨some "sid", 0⟩) SESSION_TTL = none
    ∧ (getSessionStep .malformed 7).2 = .malformed :=
  ⟨getSession_spec.1 "sid" 0 5 (by decide),
   getSession_spec.2.1 ⟨some "sid", 0⟩ SESSION_TTL (by decide),
   getSession_spec.2.2.2.2 .malformed 7⟩

/-- Claim C10: when the storage write succeeds, a getSession performed within
the freshness window after saveSession returns exactly the saved id. -/
theorem saveSession_getSession_roundtrip (id : String) (t0 t1 : Int)
    (old : StoredValue) (writeOk : Bool) (hw : writeOk = true)
    (ht : t1 - t0 < SESSION_TTL) :
    getSession (saveSessionAttempt writeOk (some id) t0 old) t1 = some id := by
  subst hw
  simp [saveSessionAttempt, getSession, ht]

/-- Witness for claim C10 at concrete inputs. -/
theorem saveSession_getSession_roundtrip_witness :
    getSession (saveSessionAttempt true (some "abc") 0 .missing) 3600 = some "abc" :=
  saveSession_getSession_roundtrip "abc" 0 3600 .missing true rfl (by decide)

/-- Claim C9: falsy input (the empty string, or a null or undefined argument,
both modelled by none) yields the empty string with no paragraph wrapper. -/
theorem renderMarkdown_falsy_empty :
    renderMarkdownNullable none = "" ∧ renderMarkdown "" = "" :=
  ⟨rfl, rfl⟩

/-- Claim C4: two consecutive dash items produce one single ul container
holding both li items, not two separate lists. -/
theorem renderMarkdown_list_grouping :
    renderMarkdown "- a\n- b" = "<p><ul><li>a</li><li>b</li></ul></p>" := by rfl

/-- Claim C5: a blank trimmed input or a send already in flight makes
sendMessage a no-op: no request is issued, no message rendered, and the state
is returned unchanged. -/
theorem sendMessage_guard_noop (st : WidgetState) (now : Int) (writeOk : Bool)
    (r : FetchOutcome) (h : jsTrimStr st.inputValue = "" ∨ st.isLoading = true) :
    sendMessage st now writeOk r = (st, []) := by
  simp only [sendMessage]
  rw [if_pos h]

/-- Witness for claim C5: a whitespace-only input is dropped whole. -/
theorem sendMessage_guard_noop_witness :
    (jsTrimStr demoBlankState.inputValue = "" ∨ demoBlankState.isLoading = true)
    ∧ sendMessage demoBlankState 0 true .networkError = (demoBlankState, []) :=
  ⟨by decide, sendMessage_guard_noop demoBlankState 0 true .networkError (by decide)⟩

/-- Claim C6: when the guard passes, every failing chat call appends exactly
the optimistic user message and one fixed fallback assistant message and
removes the typing indicator; and every call, failing or not, ends with
loading cleared, the send button re-enabled and the input focused. -/
theorem sendMessage_failure_fallback (st : WidgetState) (now : Int)
    (writeOk : Bool) (r : FetchOutcome)
    (h : ¬(jsTrimStr st.inputValue = "" ∨ st.isLoading = true)) :
    (chatFails r = true →
      (sendMessage st now writeOk r).1.messages =
        st.messages ++ [⟨some (jsTrimStr st.inputValue), .user⟩,
                        ⟨some chatFallback, .assistant⟩]
      ∧ (sendMessage st now writeOk r).1.typingShown = false)
    ∧ (sendMessage st now writeOk r).1.isLoading = false
    ∧ (sendMessage st now writeOk r).1.sendDisabled = false
    ∧ (sendMessage st now writeOk r).1.inputFocused = true := by
  cases r with
  | networkError =>
    simp [sendMessage, if_neg h, addMessage, chatFails]
  | response ok body =>
    cases ok with
    | false =>
      cases body with
      | none => simp [sendMessage, if_neg h, addMessage, chatFails]
      | some data => simp [sendMessage, if_neg h, addMessage, chatFails]
    | true =>
      cases body with
      | none => simp [sendMessage, if_neg h, addMessage, chatFails]
      | some data => simp [sendMessage, if_neg h, addMessage, chatFails]

/-- Witness for claim C6: a rejected chat call on a nonblank input. -/
theorem sendMessage_failure_fallback_witness :
    ¬(jsTrimStr demoSendState.inputValue = "" ∨ demoSendState.isLoading = true)
    ∧ (sendMessage demoSendState 0 true .networkError).1.isLoading = false :=
  ⟨by decide,
   (sendMessage_failure_fallback demoSendState 0 true .networkError (by decide)).2.1⟩

/-- Each event issues at most one greeting request; a step that issues one
leaves the greeted flag set; and once the flag is set no step issues a request
or clears the flag. -/
theorem step_greet_bound (st : WidgetState) (e : WEvent) :
    (step st e).2 ≤ 1
    ∧ ((step st e).2 = 1 → (step st e).1.hasGreeted = true)
    ∧ (st.hasGreeted = true →
        (step st e).2 = 0 ∧ (step st e).1.hasGreeted = true) := by
  cases e with
  | toggle =>
    by_cases ho : st.isOpen = false
    · by_cases hg : st.hasGreeted = true
      · simp [step, togglePanel, ho, hg, greetStart]
      · simp [step, togglePanel, ho, hg, greetStart]
    · simp [step, togglePanel, ho]
  | greetFinish now writeOk r =>
    cases r with
    | networkError => simp [step, greetResolve, addMessage]
    | response ok body =>
      cases body with
      | none => simp [step, greetResolve, addMessage]
      | some data => simp [step, greetResolve, addMessage]
  | send now writeOk r =>
    by_cases h : jsTrimStr st.inputValue = "" ∨ st.isLoading = true
    · simp [step, sendMessage, if_pos h]
    · cases r with
      | networkError => simp [step, sendMessage, if_neg h, addMessage]
      | response ok body =>
        cases ok with
        | false =>
          cases body with
          | none => simp [step, sendMessage, if_neg h, addMessage]
          | some data => simp [step, sendMessage, if_neg h, addMessage]
        | true =>
          cases body with
          | none => simp [step, sendMessage, if_neg h, addMessage]
          | some data => simp [step, sendMessage, if_neg h, addMessage]

/-- Once the greeted flag is set, a trace issues no further greeting
requests. -/
theorem runTrace_greeted_zero (es : List WEvent) :
    ∀ st : WidgetState, st.hasGreeted = true → (runTrace st es).2 = 0 := by
  induction es with
  | nil => intro st h; rfl
  | cons e es ih =>
    intro st h
    have hs := (step_greet_bound st e).2.2 h
    simp [runTrace, hs.1, ih _ hs.2]

/-- Claim C7: at most one greeting request is ever issued per page load — over
any trace of panel toggles, greeting resolutions and sends, from the initial
page-load state (or indeed from any state), the number of greeting requests is
at most one, because fetchGreeting sets the greeted flag before initiating the
network call. -/
theorem greeting_at_most_once :
    (∀ (st : WidgetState) (es : List WEvent), (runTrace st es).2 ≤ 1)
    ∧ (∀ (stored : StoredValue) (now : Int) (es : List WEvent),
        (runTrace (initState stored now) es).2 ≤ 1) := by
  have main : ∀ (es : List WEvent) (st : WidgetState), (runTrace st es).2 ≤ 1 := by
    intro es
    induction es with
    | nil => intro st; simp [runTrace]
    | cons e es ih =>
      intro st
      have hb := step_greet_bound st e
      rcases Nat.le_one_iff_eq_zero_or_eq_one.mp hb.1 with h0 | h1
      · simpa [runTrace, h0] using ih (step st e).1
      · have hg := hb.2.1 h1
        have hz := runTrace_greeted_zero es _ hg
        simp [runTrace, h1, hz]
  exact ⟨fun st es => main es st, fun stored now es => main es _⟩

/-- Claim C1 counterexample: a non-success greeting response whose body parses
as JSON is not converted to the fallback welcome message — fetchGreeting never
reads the ok flag, so the body is processed as a success. -/
theorem fetchGreeting_non2xx_counterexample :
    (fetchGreeting (initState .missing 0) 0 true
        (.response false (some ⟨some "sid", some "Server Error"⟩))).messages
      = [⟨some "Server Error", .assistant⟩]
    ∧ (fetchGreeting (initState .missing 0) 0 true
        (.response false (some ⟨some "sid", some "Server Error"⟩))).messages
      ≠ [⟨some greetFallback, .assistant⟩] := by
  constructor
  · rfl
  · decide

/-- Claim C1 (amended): every network error or JSON parse failure on a
greeting request is caught and converted to the single fixed fallback welcome
message rendered as an assistant message with the typing indicator removed,
and never propagated; but the HTTP status is not consulted, so a non-success
response with a parseable JSON body is processed exactly like a success. -/
theorem fetchGreeting_error_fallback :
    (∀ (st : WidgetState) (now : Int) (writeOk : Bool) (r : FetchOutcome),
      greetFails r = true →
        (fetchGreeting st now writeOk r).messages
          = st.messages ++ [⟨some greetFallback, .assistant⟩]
        ∧ (fetchGreeting st now writeOk r).typingShown = false)
    ∧ (∀ (st : WidgetState) (now : Int) (writeOk : Bool) (ok1 ok2 : Bool)
        (b : RespBody),
        fetchGreeting st now writeOk (.response ok1 (some b))
          = fetchGreeting st now writeOk (.response ok2 (some b))) := by
  constructor
  · intro st now writeOk r h
    cases r with
    | networkError => simp [fetchGreeting, greetResolve, greetStart, addMessage]
    | response ok body =>
      cases body with
      | none => simp [fetchGreeting, greetResolve, greetStart, addMessage]
      | some data => simp [greetFails] at h
  · intro st now writeOk ok1 ok2 b
    rfl

/-- Witness for the amended claim C1: a rejected greeting fetch yields exactly
the fallback welcome message. -/
theorem fetchGreeting_error_fallback_witness :
    greetFails .networkError = true
    ∧ (fetchGreeting (initState .missing 0) 0 true .networkError).messages
        = [⟨some greetFallback, .assistant⟩] := by
  refine ⟨rfl, ?_⟩
  have h := (fetchGreeting_error_fallback.1 (initState .missing 0) 0 true
    .networkError rfl).1
  simpa using h

/-! # Prefix-test lemmas -/

/-- The empty list is a prefix of everything. -/
theorem pref_nil (s : List Char) : pref [] s = true := by
  cases s <;> rfl

/-- A list is a prefix of itself followed by anything. -/
theorem pref_refl_append (p r : List Char) : pref p (p ++ r) = true := by
  induction p with
  | nil => exact pref_nil r
  | cons a as ih => simp [pref, ih]

/-- Extending the subject on the right preserves a prefix. -/
theorem pref_append_right {p s : List Char} (t : List Char) (h : pref p s = true) :
    pref p (s ++ t) = true := by
  induction p generalizing s with
  | nil => exact pref_nil _
  | cons a as ih =>
    cases s with
    | nil => simp [pref] at h
    | cons b bs =>
      simp [pref] at h ⊢
      exact ⟨h.1, ih h.2⟩

/-- A prefix decomposes the subject. -/
theorem pref_decompose {p s : List Char} (h : pref p s = true) :
    s = p ++ List.drop p.length s := by
  induction p generalizing s with
  | nil => simp
  | cons a as ih =>
    cases s with
    | nil => simp [pref] at h
    | cons b bs =>
      simp [pref] at h
      obtain ⟨h1, h2⟩ := h
      subst h1
      simpa using ih h2

/-- Mismatched heads refute a prefix. -/
theorem pref_head_false {p : Char} {ps : List Char} {c : Char} {cs : List Char}
    (h : (p == c) = false) : pref (p :: ps) (c :: cs) = false := by
  simp [pref, h]

/-- A prefix that fits before a boundary character it does not contain is
already a prefix of the part before the boundary. -/
theorem pref_cross {h a : List Char} {c : Char} {r : List Char}
    (hp : pref h (a ++ c :: r) = true) (hc : c ∉ h) :
    pref h a = true := by
  induction h generalizing a with
  | nil => exact pref_nil a
  | cons x xs ih =>
    cases a with
    | nil =>
      simp [pref] at hp
      exact absurd (by rw [← hp.1]; exact List.mem_cons_self x xs : c ∈ x :: xs) hc
    | cons b bs =>
      rw [List.cons_append] at hp
      simp [pref] at hp ⊢
      refine ⟨hp.1, ih hp.2 (fun hm => hc (List.mem_cons_of_mem _ hm))⟩

/-! # Closure properties of angleOk -/

/-- Unfolding of angleOk at a cons cell. -/
theorem angleOk_cons_iff (c : Char) (cs : List Char) :
    angleOk (c :: cs) = true ↔ (c = '<' → headAt cs = true) ∧ angleOk cs = true := by
  by_cases h : c = '<' <;> simp [angleOk, h]

/-- Extending the subject preserves a head occurrence. -/
theorem headAt_append {s : List Char} (t : List Char) (h : headAt s = true) :
    headAt (s ++ t) = true := by
  simp [headAt] at h ⊢
  obtain ⟨hd, hmem, hp⟩ := h
  exact ⟨hd, hmem, pref_append_right t hp⟩

/-- angleOk is closed under concatenation: every head already fits inside its
own side. -/
theorem angleOk_append {a b : List Char} (ha : angleOk a = true)
    (hb : angleOk b = true) : angleOk (a ++ b) = true := by
  induction a with
  | nil => simpa
  | cons c cs ih =>
    rw [List.cons_append, angleOk_cons_iff]
    rcases (angleOk_cons_iff c cs).mp ha with ⟨h1, h2⟩
    exact ⟨fun hc => headAt_append b (h1 hc), ih h2⟩

/-- angleOk passes to suffixes. -/
theorem angleOk_suffix {a b : List Char} (h : angleOk (a ++ b) = true) :
    angleOk b = true := by
  induction a with
  | nil => simpa using h
  | cons c cs ih =>
    rw [List.cons_append] at h
    exact ih ((angleOk_cons_iff _ _).mp h).2

/-- angleOk passes to drops. -/
theorem angleOk_drop {s : List Char} (n : Nat) (h : angleOk s = true) :
    angleOk (List.drop n s) = true := by
  have hs : s = List.take n s ++ List.drop n s := (List.take_append_drop n s).symm
  exact angleOk_suffix (hs ▸ h)

/-- angleOk passes to the part before a boundary character that occurs in no
head: no head can straddle the boundary. -/
theorem angleOk_boundary {a : List Char} {c : Char} {r : List Char}
    (h : angleOk (a ++ c :: r) = true) (hc : ∀ hd ∈ tagHeads, c ∉ hd) :
    angleOk a = true := by
  induction a with
  | nil => rfl
  | cons x xs ih =>
    rw [List.cons_append] at h
    rcases (angleOk_cons_iff _ _).mp h with ⟨h1, h2⟩
    rw [angleOk_cons_iff]
    refine ⟨fun hx => ?_, ih h2⟩
    have hh := h1 hx
    simp [headAt] at hh ⊢
    obtain ⟨hd, hmem, hp⟩ := hh
    exact ⟨hd, hmem, pref_cross hp (hc hd hmem)⟩

/-- Lists without a less-than sign are trivially angleOk. -/
theorem angleOk_of_no_lt {s : List Char} (h : ∀ c ∈ s, c ≠ '<') :
    angleOk s = true := by
  induction s with
  | nil => rfl
  | cons c cs ih =>
    rw [angleOk_cons_iff]
    exact ⟨fun hc => absurd hc (h c (List.mem_cons_self c cs)),
           ih (fun x hx => h x (List.mem_cons_of_mem _ hx))⟩

/-- Transfer a head occurrence through a transformation that preserves each
head prefix. -/
theorem headAt_transfer {cs out : List Char} (hh : headAt cs = true)
    (htr : ∀ hd ∈ tagHeads, ∀ r, cs = hd ++ r → pref hd out = true) :
    headAt out = true := by
  simp [headAt] at hh ⊢
  obtain ⟨hd, hmem, hp⟩ := hh
  exact ⟨hd, hmem, htr hd hmem _ (pref_decompose hp)⟩

/-! # Decidable facts about the head whitelist -/

/-- No head contains a star. -/
theorem tagHeads_no_star : ∀ hd ∈ tagHeads, '*' ∉ hd := by decide

/-- No head contains an opening bracket. -/
theorem tagHeads_no_bracket : ∀ hd ∈ tagHeads, '[' ∉ hd := by decide

/-- No head contains a closing bracket. -/
theorem tagHeads_no_rsq : ∀ hd ∈ tagHeads, ']' ∉ hd := by decide

/-- No head contains a closing parenthesis. -/
theorem tagHeads_no_rp : ∀ hd ∈ tagHeads, ')' ∉ hd := by decide

/-- No head contains a backtick. -/
theorem tagHeads_no_tick : ∀ hd ∈ tagHeads, '\u0060' ∉ hd := by decide

/-- No head contains a newline. -/
theorem tagHeads_no_nl : ∀ hd ∈ tagHeads, '\n' ∉ hd := by decide

/-- No head contains a less-than sign. -/
theorem tagHeads_no_lt : ∀ hd ∈ tagHeads, '<' ∉ hd := by decide

/-- No head contains a line terminator. -/
theorem tagHeads_no_term : ∀ hd ∈ tagHeads, ∀ c ∈ hd, isLineTerm c = false := by decide

/-! # Decomposition lemmas for the matching helpers -/

/-- A successful lazy dot capture decomposes its input. -/
theorem dotCapture_spec {close : List Char} :
    ∀ {s acc cap rest : List Char},
      dotCapture close acc s = some (cap, rest) →
      ∃ mid, cap = acc.reverse ++ mid ∧ s = mid ++ close ++ rest := by
  intro s
  induction s with
  | nil =>
    intro acc cap rest h
    simp only [dotCapture] at h
    by_cases hc : pref close [] = true
    · rw [if_pos hc] at h
      have hcl : close = [] := by
        cases close with
        | nil => rfl
        | cons a as => simp [pref] at hc
      simp only [Option.some.injEq, Prod.mk.injEq] at h
      obtain ⟨h1, h2⟩ := h
      exact ⟨[], by simp [h1], by simp [hcl, ← h2]⟩
    · rw [if_neg hc] at h
      exact absurd h (by simp)
  | cons c cs ih =>
    intro acc cap rest h
    simp only [dotCapture] at h
    by_cases hp : pref close (c :: cs) = true
    · rw [if_pos hp] at h
      simp only [Option.some.injEq, Prod.mk.injEq] at h
      obtain ⟨h1, h2⟩ := h
      refine ⟨[], by simp [h1], ?_⟩
      simp only [List.nil_append]
      rw [← h2]
      exact pref_decompose hp
    · rw [if_neg hp] at h
      by_cases ht : isLineTerm c = true
      · rw [if_pos ht] at h
        exact absurd h (by simp)
      · rw [if_neg ht] at h
        obtain ⟨mid, hcap, hcs⟩ := ih h
        refine ⟨c :: mid, ?_, ?_⟩
        · rw [hcap]; simp
        · simp [hcs]

/-- A successful lazy close decomposes its input into capture, closing
delimiter and remainder. -/
theorem dotLazyClose_spec {close s cap rest : List Char}
    (h : dotLazyClose close s = some (cap, rest)) :
    s = cap ++ close ++ rest := by
  cases s with
  | nil => simp [dotLazyClose] at h
  | cons c cs =>
    simp only [dotLazyClose] at h
    by_cases ht : isLineTerm c = true
    · rw [if_pos ht] at h
      exact absurd h (by simp)
    · rw [if_neg ht] at h
      obtain ⟨mid, hcap, hcs⟩ := dotCapture_spec h
      simp only [List.reverse_cons, List.reverse_nil, List.nil_append] at hcap
      rw [hcap, hcs]
      simp

/-- A successful negated-class scan decomposes its input. -/
theorem classScan_spec {bad : Char} :
    ∀ {s acc cap rest : List Char},
      classScan bad acc s = some (cap, rest) →
      ∃ mid, cap = acc.reverse ++ mid ∧ s = mid ++ bad :: rest := by
  intro s
  induction s with
  | nil => intro acc cap rest h; simp [classScan] at h
  | cons c cs ih =>
    intro acc cap rest h
    simp only [classScan] at h
    by_cases hc : c = bad
    · rw [if_pos hc] at h
      simp only [Option.some.injEq, Prod.mk.injEq] at h
      obtain ⟨h1, h2⟩ := h
      exact ⟨[], by simp [h1], by simp [hc, h2]⟩
    · rw [if_neg hc] at h
      obtain ⟨mid, hcap, hcs⟩ := ih h
      refine ⟨c :: mid, ?_, ?_⟩
      · rw [hcap]; simp
      · simp [hcs]

/-- A successful negated-class capture decomposes its input. -/
theorem classUntil_spec {bad : Char} {s cap rest : List Char}
    (h : classUntil bad s = some (cap, rest)) :
    s = cap ++ bad :: rest := by
  cases s with
  | nil => simp [classUntil] at h
  | cons c cs =>
    simp only [classUntil] at h
    by_cases hc : c = bad
    · rw [if_pos hc] at h
      exact absurd h (by simp)
    · rw [if_neg hc] at h
      obtain ⟨mid, hcap, hcs⟩ := classScan_spec h
      simp only [List.reverse_cons, List.reverse_nil, List.nil_append] at hcap
      rw [hcap, hcs]
      simp

/-- A successful token split decomposes its input. -/
theorem splitAtFirst_spec {tok : List Char} :
    ∀ {s b a : List Char},
      splitAtFirst tok s = some (b, a) → s = b ++ tok ++ a := by
  intro s
  induction s with
  | nil => intro b a h; simp [splitAtFirst] at h
  | cons c cs ih =>
    intro b a h
    simp only [splitAtFirst] at h
    by_cases hp : pref tok (c :: cs) = true
    · rw [if_pos hp] at h
      simp only [Option.some.injEq, Prod.mk.injEq] at h
      obtain ⟨h1, h2⟩ := h
      rw [← h1, ← h2]
      simpa using pref_decompose hp
    · rw [if_neg hp] at h
      cases hsp : splitAtFirst tok cs with
      | none => rw [hsp] at h; exact absurd h (by simp)
      | some p =>
        rw [hsp] at h
        obtain ⟨b2, a2⟩ := p
        simp only [Option.some.injEq, Prod.mk.injEq] at h
        obtain ⟨h1, h2⟩ := h
        have := ih hsp
        rw [← h1, ← h2]
        simp [this]

/-- breakAtTerm decomposes its input. -/
theorem breakAtTerm_append (s : List Char) :
    s = (breakAtTerm s).1 ++ (breakAtTerm s).2 := by
  induction s with
  | nil => rfl
  | cons c cs ih =>
    simp only [breakAtTerm]
    by_cases h : isLineTerm c = true
    · rw [if_pos h]
      simp
    · rw [if_neg h]
      simpa using ih

/-- The first line contains no terminator. -/
theorem breakAtTerm_line (s : List Char) :
    ∀ c ∈ (breakAtTerm s).1, isLineTerm c = false := by
  induction s with
  | nil => intro c hc; simp [breakAtTerm] at hc
  | cons c cs ih =>
    intro x hx
    simp only [breakAtTerm] at hx
    by_cases h : isLineTerm c = true
    · rw [if_pos h] at hx
      simp at hx
    · rw [if_neg h] at hx
      simp at hx
      rcases hx with hx | hx
      · rw [hx]
        exact Bool.not_eq_true _ ▸ (by simpa using h)
      · exact ih x hx

/-- The remainder after the first line is empty or starts with a
terminator. -/
theorem breakAtTerm_rest (s : List Char) :
    (breakAtTerm s).2 = []
    ∨ ∃ t rest, (breakAtTerm s).2 = t :: rest ∧ isLineTerm t = true := by
  induction s with
  | nil => exact Or.inl rfl
  | cons c cs ih =>
    simp only [breakAtTerm]
    by_cases h : isLineTerm c = true
    · rw [if_pos h]
      exact Or.inr ⟨c, cs, rfl, h⟩
    · rw [if_neg h]
      simpa using ih

/-! # Head transparency of the scanners

A scanner whose match triggers all start with a character absent from a list
keeps that list as a prefix: no match can begin inside it. -/

/-- The star scanner keeps a prefix free of its opening character. -/
theorem starsF_pref_preserved (opn cls pre post : List Char) (hd0 : Char)
    (tl : List Char) (hopn : opn = hd0 :: tl) :
    ∀ (h : List Char), hd0 ∉ h → ∀ (f : Nat) (r : List Char),
      pref h (starsF opn cls pre post f (h ++ r)) = true := by
  intro h
  induction h with
  | nil => intro _ f r; exact pref_nil _
  | cons x xs ih =>
    intro hm f r
    cases f with
    | zero => exact pref_refl_append _ _
    | succ f =>
      have hx : (hd0 == x) = false :=
        beq_eq_false_iff_ne.mpr (fun he => hm (List.mem_cons.mpr (Or.inl he)))
      have hcond : pref opn (x :: (xs ++ r)) = false := by
        rw [hopn]; exact pref_head_false hx
      rw [List.cons_append]
      simp only [starsF]
      rw [if_neg (by simp [hcond])]
      simp only [pref, beq_self_eq_true, Bool.true_and]
      exact ih (fun hm2 => hm (List.mem_cons_of_mem _ hm2)) f r

/-- The link scanner keeps a prefix free of opening brackets. -/
theorem linkF_pref_preserved :
    ∀ (h : List Char), '[' ∉ h → ∀ (f : Nat) (r : List Char),
      pref h (linkF f (h ++ r)) = true := by
  intro h
  induction h with
  | nil => intro _ f r; exact pref_nil _
  | cons x xs ih =>
    intro hm f r
    cases f with
    | zero => exact pref_refl_append _ _
    | succ f =>
      have hx : ¬ (x = '[') := fun he => hm (List.mem_cons.mpr (Or.inl he.symm))
      rw [List.cons_append]
      simp only [linkF]
      rw [if_neg hx]
      simp only [pref, beq_self_eq_true, Bool.true_and]
      exact ih (fun hm2 => hm (List.mem_cons_of_mem _ hm2)) f r

/-- The code scanner keeps a prefix free of backticks. -/
theorem codeF_pref_preserved :
    ∀ (h : List Char), '\u0060' ∉ h → ∀ (f : Nat) (r : List Char),
      pref h (codeF f (h ++ r)) = true := by
  intro h
  induction h with
  | nil => intro _ f r; exact pref_nil _
  | cons x xs ih =>
    intro hm f r
    cases f with
    | zero => exact pref_refl_append _ _
    | succ f =>
      have hx : ¬ (x = '\u0060') := fun he => hm (List.mem_cons.mpr (Or.inl he.symm))
      rw [List.cons_append]
      simp only [codeF]
      rw [if_neg hx]
      simp only [pref, beq_self_eq_true, Bool.true_and]
      exact ih (fun hm2 => hm (List.mem_cons_of_mem _ hm2)) f r

/-- The paragraph-break scanner keeps a prefix free of newlines. -/
theorem brkParaF_pref_preserved :
    ∀ (h : List Char), '\n' ∉ h → ∀ (f : Nat) (r : List Char),
      pref h (brkParaF f (h ++ r)) = true := by
  intro h
  induction h with
  | nil => intro _ f r; exact pref_nil _
  | cons x xs ih =>
    intro hm f r
    cases f with
    | zero => exact pref_refl_append _ _
    | succ f =>
      have hx : ('\n' == x) = false :=
        beq_eq_false_iff_ne.mpr (fun he => hm (List.mem_cons.mpr (Or.inl he)))
      have hcond : pref ['\n', '\n'] (x :: (xs ++ r)) = false := pref_head_false hx
      rw [List.cons_append]
      simp only [brkParaF]
      rw [if_neg (by simp [hcond])]
      simp only [pref, beq_self_eq_true, Bool.true_and]
      exact ih (fun hm2 => hm (List.mem_cons_of_mem _ hm2)) f r

/-- The newline scanner keeps a prefix free of newlines. -/
theorem brNl_pref_preserved :
    ∀ (h : List Char), '\n' ∉ h → ∀ (r : List Char),
      pref h (brNl (h ++ r)) = true := by
  intro h
  induction h with
  | nil => intro _ r; exact pref_nil _
  | cons x xs ih =>
    intro hm r
    have hx : ¬ (x = '\n') := fun he => hm (List.mem_cons.mpr (Or.inl he.symm))
    rw [List.cons_append]
    simp only [brNl]
    rw [if_neg hx]
    simp only [pref, beq_self_eq_true, Bool.true_and]
    exact ih (fun hm2 => hm (List.mem_cons_of_mem _ hm2)) r

/-- The br-stripping scanner keeps a prefix free of less-than signs. -/
theorem stripBrLiF_pref_preserved :
    ∀ (h : List Char), '<' ∉ h → ∀ (f : Nat) (r : List Char),
      pref h (stripBrLiF f (h ++ r)) = true := by
  intro h
  induction h with
  | nil => intro _ f r; exact pref_nil _
  | cons x xs ih =>
    intro hm f r
    cases f with
    | zero => exact pref_refl_append _ _
    | succ f =>
      have hx : ('<' == x) = false :=
        beq_eq_false_iff_ne.mpr (fun he => hm (List.mem_cons.mpr (Or.inl he)))
      have h1 : pref brLiT (x :: (xs ++ r)) = false := by
        have hb : brLiT = '<' :: "br><li>".data := rfl
        rw [hb]; exact pref_head_false hx
      have h2 : pref liOpenT (x :: (xs ++ r)) = false := by
        have hb : liOpenT = '<' :: "li>".data := rfl
        rw [hb]; exact pref_head_false hx
      rw [List.cons_append]
      simp only [stripBrLiF]
      rw [if_neg (by simp [h1]), if_neg (by simp [h2])]
      simp only [pref, beq_self_eq_true, Bool.true_and]
      exact ih (fun hm2 => hm (List.mem_cons_of_mem _ hm2)) f r

/-! # angleOk preservation through each pipeline stage -/

/-- The star scanner preserves angleOk: it copies captures verbatim, inserts
whole whitelisted tags, and cannot split a head since heads contain no
star. -/
theorem angleOk_starsF (opn cls pre post tl1 tl2 : List Char)
    (hopn : opn = '*' :: tl1) (hcls : cls = '*' :: tl2)
    (hpre : angleOk pre = true) (hpost : angleOk post = true) :
    ∀ (f : Nat) (s : List Char), angleOk s = true →
      angleOk (starsF opn cls pre post f s) = true := by
  intro f
  induction f with
  | zero => intro s hs; exact hs
  | succ f ih =>
    intro s hs
    cases s with
    | nil => exact hs
    | cons c cs =>
      simp only [starsF]
      have hcopy : angleOk (c :: starsF opn cls pre post f cs) = true := by
        rcases (angleOk_cons_iff c cs).mp hs with ⟨g1, g2⟩
        rw [angleOk_cons_iff]
        refine ⟨fun hcc => ?_, ih cs g2⟩
        refine headAt_transfer (g1 hcc) ?_
        intro hd hmem r hr
        rw [hr]
        exact starsF_pref_preserved opn cls pre post '*' tl1 hopn hd
          (tagHeads_no_star hd hmem) f r
      by_cases hp : pref opn (c :: cs) = true
      · rw [if_pos hp]
        cases hdc : dotLazyClose cls (List.drop opn.length (c :: cs)) with
        | none => exact hcopy
        | some pr =>
          obtain ⟨cap, rest⟩ := pr
          show angleOk (pre ++ cap ++ post ++ starsF opn cls pre post f rest) = true
          have hdec := pref_decompose hp
          have hspec := dotLazyClose_spec hdc
          have hdrop : angleOk (List.drop opn.length (c :: cs)) = true := by
            rw [hdec] at hs
            exact angleOk_suffix hs
          have hrest : angleOk rest = true := by
            rw [hspec] at hdrop
            exact angleOk_suffix hdrop
          have hcap : angleOk cap = true := by
            rw [hspec, hcls] at hdrop
            have hdrop2 : angleOk (cap ++ '*' :: (tl2 ++ rest)) = true := by
              simpa [List.append_assoc] using hdrop
            exact angleOk_boundary hdrop2 tagHeads_no_star
          exact angleOk_append (angleOk_append (angleOk_append hpre hcap) hpost)
            (ih rest hrest)
      · rw [if_neg hp]
        exact hcopy

/-- A successful link attempt decomposes its input. -/
theorem linkTry_spec {cs txt url r3 : List Char}
    (h : linkTry cs = some (txt, url, r3)) :
    cs = txt ++ ']' :: '(' :: (url ++ ')' :: r3) := by
  simp only [linkTry] at h
  split at h
  · rename_i txt2 r1 heq1
    split at h
    · rename_i x r2
      split at h
      · rename_i hx
        split at h
        · rename_i url2 r32 heq2
          simp only [Option.some.injEq, Prod.mk.injEq] at h
          obtain ⟨h1, h2, h3⟩ := h
          subst h1; subst h2; subst h3; subst hx
          have e1 := classUntil_spec heq1
          have e2 := classUntil_spec heq2
          rw [e1, e2]
        · exact absurd h (by simp)
      · exact absurd h (by simp)
    · exact absurd h (by simp)
  · exact absurd h (by simp)

/-- The link scanner preserves angleOk: the captured text and url are copied
verbatim between whole anchor fragments, and heads contain neither bracket
delimiter. -/
theorem angleOk_linkF :
    ∀ (f : Nat) (s : List Char), angleOk s = true →
      angleOk (linkF f s) = true := by
  intro f
  induction f with
  | zero => intro s hs; exact hs
  | succ f ih =>
    intro s hs
    cases s with
    | nil => exact hs
    | cons c cs =>
      simp only [linkF]
      have hcopy : angleOk (c :: linkF f cs) = true := by
        rcases (angleOk_cons_iff c cs).mp hs with ⟨g1, g2⟩
        rw [angleOk_cons_iff]
        refine ⟨fun hcc => ?_, ih cs g2⟩
        refine headAt_transfer (g1 hcc) ?_
        intro hd hmem r hr
        rw [hr]
        exact linkF_pref_preserved hd (tagHeads_no_bracket hd hmem) f r
      by_cases hc : c = '['
      · rw [if_pos hc]
        cases hl : linkTry cs with
        | none => exact hcopy
        | some p =>
          obtain ⟨txt, url, r3⟩ := p
          show angleOk (aOpen ++ url ++ aMid ++ txt ++ aClose ++ linkF f r3) = true
          have hcs := linkTry_spec hl
          have htail : angleOk cs = true := ((angleOk_cons_iff c cs).mp hs).2
          have htxt : angleOk txt = true := by
            rw [hcs] at htail
            exact angleOk_boundary htail tagHeads_no_rsq
          have hmid : angleOk (url ++ ')' :: r3) = true := by
            rw [hcs] at htail
            have h2 := angleOk_suffix htail
            have h3 := ((angleOk_cons_iff _ _).mp h2).2
            exact ((angleOk_cons_iff _ _).mp h3).2
          have hurl : angleOk url = true := angleOk_boundary hmid tagHeads_no_rp
          have hr3 : angleOk r3 = true := by
            have h2 := angleOk_suffix hmid
            exact ((angleOk_cons_iff _ _).mp h2).2
          exact angleOk_append
            (angleOk_append
              (angleOk_append
                (angleOk_append (angleOk_append (by decide) hurl) (by decide))
                htxt)
              (by decide))
            (ih r3 hr3)
      · rw [if_neg hc]
        exact hcopy

/-- The code scanner preserves angleOk. -/
theorem angleOk_codeF :
    ∀ (f : Nat) (s : List Char), angleOk s = true →
      angleOk (codeF f s) = true := by
  intro f
  induction f with
  | zero => intro s hs; exact hs
  | succ f ih =>
    intro s hs
    cases s with
    | nil => exact hs
    | cons c cs =>
      simp only [codeF]
      have hcopy : angleOk (c :: codeF f cs) = true := by
        rcases (angleOk_cons_iff c cs).mp hs with ⟨g1, g2⟩
        rw [angleOk_cons_iff]
        refine ⟨fun hcc => ?_, ih cs g2⟩
        refine headAt_transfer (g1 hcc) ?_
        intro hd hmem r hr
        rw [hr]
        exact codeF_pref_preserved hd (tagHeads_no_tick hd hmem) f r
      by_cases hc : c = '\u0060'
      · rw [if_pos hc]
        cases h1 : classUntil '\u0060' cs with
        | none => exact hcopy
        | some p1 =>
          obtain ⟨code, r⟩ := p1
          show angleOk
            ("<code>".data ++ code ++ "</code>".data ++ codeF f r) = true
          have hcs : cs = code ++ '`' :: r := classUntil_spec h1
          have htail : angleOk cs = true := ((angleOk_cons_iff c cs).mp hs).2
          have hcode : angleOk code = true := by
            rw [hcs] at htail
            exact angleOk_boundary htail tagHeads_no_tick
          have hr : angleOk r = true := by
            rw [hcs] at htail
            have h2 := angleOk_suffix htail
            exact ((angleOk_cons_iff _ _).mp h2).2
          exact angleOk_append
            (angleOk_append (angleOk_append (by decide) hcode) (by decide))
            (ih r hr)
      · rw [if_neg hc]
        exact hcopy

/-- A line transformer that wraps a matching line in angleOk tags preserves
angleOk. -/
theorem angleOk_headerLine (mark opn cls : List Char)
    (ho : angleOk opn = true) (hc : angleOk cls = true) :
    ∀ line, angleOk line = true → angleOk (headerLine mark opn cls line) = true := by
  intro line hl
  simp only [headerLine]
  by_cases hcnd : pref mark line = true ∧ mark.length < line.length
  · rw [if_pos hcnd]
    exact angleOk_append (angleOk_append ho (angleOk_drop _ hl)) hc
  · rw [if_neg hcnd]
    exact hl

/-- Mapping an angleOk-preserving transformer over the lines preserves
angleOk: line terminators occur in no head, so the split never cuts a head. -/
theorem angleOk_mapLinesF (g : List Char → List Char)
    (hg : ∀ line, angleOk line = true → angleOk (g line) = true) :
    ∀ (f : Nat) (s : List Char), angleOk s = true →
      angleOk (mapLinesF g f s) = true := by
  intro f
  induction f with
  | zero => intro s hs; exact hs
  | succ f ih =>
    intro s hs
    simp only [mapLinesF]
    split
    · rename_i line heq
      have hap := breakAtTerm_append s
      rw [heq] at hap
      simp only [List.append_nil] at hap
      exact hg line (hap ▸ hs)
    · rename_i line t rest heq
      have hap := breakAtTerm_append s
      rw [heq] at hap
      have hterm : isLineTerm t = true := by
        rcases breakAtTerm_rest s with h0 | ⟨t2, r2, he2, ht2⟩
        · rw [heq] at h0; exact absurd h0 (by simp)
        · rw [heq] at he2
          simp only [List.cons.injEq] at he2
          rw [he2.1]
          exact ht2
      have hline : angleOk line = true := by
        rw [hap] at hs
        refine angleOk_boundary hs ?_
        intro hd hmem ht2
        have hf := tagHeads_no_term hd hmem t ht2
        rw [hterm] at hf
        exact absurd hf (by simp)
      have hrest : angleOk rest = true := by
        rw [hap] at hs
        have h1 := angleOk_suffix hs
        exact ((angleOk_cons_iff _ _).mp h1).2
      have ht_ne : t ≠ '<' := by
        intro he
        rw [he] at hterm
        exact absurd hterm (by decide)
      refine angleOk_append (hg line hline) ?_
      rw [angleOk_cons_iff]
      exact ⟨fun he => absurd he ht_ne, ih rest hrest⟩

/-- The paragraph-break scanner preserves angleOk. -/
theorem angleOk_brkParaF :
    ∀ (f : Nat) (s : List Char), angleOk s = true →
      angleOk (brkParaF f s) = true := by
  intro f
  induction f with
  | zero => intro s hs; exact hs
  | succ f ih =>
    intro s hs
    cases s with
    | nil => exact hs
    | cons c cs =>
      simp only [brkParaF]
      by_cases hp : pref ['\n', '\n'] (c :: cs) = true
      · rw [if_pos hp]
        have h2 : angleOk (List.drop 1 cs) = true :=
          angleOk_drop 1 ((angleOk_cons_iff c cs).mp hs).2
        exact angleOk_append (by decide) (ih _ h2)
      · rw [if_neg hp]
        rcases (angleOk_cons_iff c cs).mp hs with ⟨g1, g2⟩
        rw [angleOk_cons_iff]
        refine ⟨fun hcc => ?_, ih cs g2⟩
        refine headAt_transfer (g1 hcc) ?_
        intro hd hmem r hr
        rw [hr]
        exact brkParaF_pref_preserved hd (tagHeads_no_nl hd hmem) f r

/-- The newline scanner preserves angleOk. -/
theorem angleOk_brNl :
    ∀ (s : List Char), angleOk s = true → angleOk (brNl s) = true := by
  intro s
  induction s with
  | nil => intro h; exact h
  | cons c cs ih =>
    intro hs
    simp only [brNl]
    by_cases hc : c = '\n'
    · rw [if_pos hc]
      exact angleOk_append (by decide) (ih ((angleOk_cons_iff c cs).mp hs).2)
    · rw [if_neg hc]
      rcases (angleOk_cons_iff c cs).mp hs with ⟨g1, g2⟩
      rw [angleOk_cons_iff]
      refine ⟨fun hcc => ?_, ih g2⟩
      refine headAt_transfer (g1 hcc) ?_
      intro hd hmem r hr
      rw [hr]
      exact brNl_pref_preserved hd (tagHeads_no_nl hd hmem) r

/-- The br-stripping scanner preserves angleOk: it removes whole br tokens
next to whole li tokens and copies the captured item verbatim. -/
theorem angleOk_stripBrLiF :
    ∀ (f : Nat) (s : List Char), angleOk s = true →
      angleOk (stripBrLiF f s) = true := by
  intro f
  induction f with
  | zero => intro s hs; exact hs
  | succ f ih =>
    intro s hs
    cases s with
    | nil => exact hs
    | cons c cs =>
      simp only [stripBrLiF]
      have hcopy : angleOk (c :: stripBrLiF f cs) = true := by
        rcases (angleOk_cons_iff c cs).mp hs with ⟨g1, g2⟩
        rw [angleOk_cons_iff]
        refine ⟨fun hcc => ?_, ih cs g2⟩
        refine headAt_transfer (g1 hcc) ?_
        intro hd hmem r hr
        rw [hr]
        exact stripBrLiF_pref_preserved hd (tagHeads_no_lt hd hmem) f r
      have hbody : ∀ inner rest : List Char,
          List.drop 7 cs = inner ++ liCloseT ++ rest →
          angleOk (List.drop 7 cs) = true →
          angleOk (liOpenT ++ inner ++ liCloseT ++ stripBrLiF f (dropBr rest)) = true := by
        intro inner rest hspe hsuffix
        have hinner : angleOk inner = true := by
          rw [hspe] at hsuffix
          have hlc : liCloseT = '<' :: "/li>".data := rfl
          rw [hlc] at hsuffix
          have h3 : angleOk (inner ++ '<' :: ("/li>".data ++ rest)) = true := by
            simpa [List.append_assoc] using hsuffix
          exact angleOk_boundary h3 tagHeads_no_lt
        have hrest : angleOk rest = true := by
          rw [hspe] at hsuffix
          exact angleOk_suffix hsuffix
        have hdrb : angleOk (dropBr rest) = true := by
          rw [dropBr]
          by_cases hb : pref brT rest = true
          · rw [if_pos hb]; exact angleOk_drop 4 hrest
          · rw [if_neg hb]; exact hrest
        exact angleOk_append
          (angleOk_append (angleOk_append (by decide) hinner) (by decide))
          (ih _ hdrb)
      by_cases h1 : pref brLiT (c :: cs) = true
      · rw [if_pos h1]
        cases hsp : splitAtFirst liCloseT (List.drop 7 cs) with
        | none => exact hcopy
        | some p =>
          obtain ⟨inner, rest⟩ := p
          show angleOk (liOpenT ++ inner ++ liCloseT ++ stripBrLiF f (dropBr rest)) = true
          have hsuffix : angleOk (List.drop 7 cs) = true :=
            angleOk_drop 7 ((angleOk_cons_iff c cs).mp hs).2
          exact hbody inner rest (splitAtFirst_spec hsp) hsuffix
      · rw [if_neg h1]
        by_cases h2 : pref liOpenT (c :: cs) = true
        · rw [if_pos h2]
          cases hsp : splitAtFirst liCloseT (List.drop 3 cs) with
          | none => exact hcopy
          | some p =>
            obtain ⟨inner, rest⟩ := p
            show angleOk (liOpenT ++ inner ++ liCloseT ++ stripBrLiF f (dropBr rest)) = true
            have hsuffix : angleOk (List.drop 3 cs) = true :=
              angleOk_drop 3 ((angleOk_cons_iff c cs).mp hs).2
            -- reuse the body lemma at drop 3 by specialising it
            have hspe := splitAtFirst_spec hsp
            have hinner : angleOk inner = true := by
              rw [hspe] at hsuffix
              have hlc : liCloseT = '<' :: "/li>".data := rfl
              rw [hlc] at hsuffix
              have h3 : angleOk (inner ++ '<' :: ("/li>".data ++ rest)) = true := by
                simpa [List.append_assoc] using hsuffix
              exact angleOk_boundary h3 tagHeads_no_lt
            have hrest : angleOk rest = true := by
              rw [hspe] at hsuffix
              exact angleOk_suffix hsuffix
            have hdrb : angleOk (dropBr rest) = true := by
              rw [dropBr]
              by_cases hb : pref brT rest = true
              · rw [if_pos hb]; exact angleOk_drop 4 hrest
              · rw [if_neg hb]; exact hrest
            exact angleOk_append
              (angleOk_append (angleOk_append (by decide) hinner) (by decide))
              (ih _ hdrb)
        · rw [if_neg h2]
          exact hcopy

/-- Every text chunk produced by the tokenizer is angleOk when the input is:
the separators start with a less-than sign, which no head contains, so a cut
never splits a head. -/
theorem tokenizeF_chunks :
    ∀ (f : Nat) (acc s : List Char), angleOk (acc.reverse ++ s) = true →
      ∀ ch, LiTok.text ch ∈ tokenizeF f acc s → angleOk ch = true := by
  intro f
  induction f with
  | zero =>
    intro acc s h ch hm
    simp only [tokenizeF, List.mem_singleton, LiTok.text.injEq] at hm
    rw [hm]
    exact h
  | succ f ih =>
    intro acc s h ch hm
    cases s with
    | nil =>
      simp only [tokenizeF, List.mem_singleton, LiTok.text.injEq] at hm
      rw [hm]
      simpa using h
    | cons c cs =>
      simp only [tokenizeF] at hm
      by_cases h1 : pref liOpenT (c :: cs) = true
      · rw [if_pos h1] at hm
        rcases List.mem_cons.mp hm with he | hm2
        · have hch : ch = acc.reverse := by simpa using he
          have hdec := pref_decompose h1
          have hlo : liOpenT = '<' :: "li>".data := rfl
          rw [hdec, hlo, List.cons_append] at h
          rw [hch]
          exact angleOk_boundary h tagHeads_no_lt
        · rcases List.mem_cons.mp hm2 with he2 | hm3
          · exact absurd he2 (by simp)
          · refine ih [] (List.drop 3 cs) ?_ ch hm3
            simp only [List.reverse_nil, List.nil_append]
            have h2 : angleOk (c :: cs) = true := angleOk_suffix h
            exact angleOk_drop 3 ((angleOk_cons_iff _ _).mp h2).2
      · rw [if_neg h1] at hm
        by_cases h2 : pref liCloseT (c :: cs) = true
        · rw [if_pos h2] at hm
          rcases List.mem_cons.mp hm with he | hm2
          · have hch : ch = acc.reverse := by simpa using he
            have hdec := pref_decompose h2
            have hlo : liCloseT = '<' :: "/li>".data := rfl
            rw [hdec, hlo, List.cons_append] at h
            rw [hch]
            exact angleOk_boundary h tagHeads_no_lt
          · rcases List.mem_cons.mp hm2 with he2 | hm3
            · exact absurd he2 (by simp)
            · refine ih [] (List.drop 4 cs) ?_ ch hm3
              simp only [List.reverse_nil, List.nil_append]
              have h2b : angleOk (c :: cs) = true := angleOk_suffix h
              exact angleOk_drop 4 ((angleOk_cons_iff _ _).mp h2b).2
        · rw [if_neg h2] at hm
          refine ih (c :: acc) cs ?_ ch hm
          simpa [List.reverse_cons, List.append_assoc] using h

/-- The grouping loop emits angleOk output from angleOk text chunks: it only
adds whole list-container tags. -/
theorem groupF_angleOk :
    ∀ (toks : List LiTok) (b : Bool),
      (∀ ch, LiTok.text ch ∈ toks → angleOk ch = true) →
      angleOk (groupF b toks) = true := by
  intro toks
  induction toks with
  | nil =>
    intro b _
    cases b <;> decide
  | cons t ts ih =>
    intro b hch
    have hts : ∀ ch, LiTok.text ch ∈ ts → angleOk ch = true :=
      fun ch hm => hch ch (List.mem_cons_of_mem _ hm)
    cases t with
    | openLi =>
      simp only [groupF]
      refine angleOk_append (angleOk_append ?_ (by decide)) (ih true hts)
      by_cases hb : b = true
      · rw [if_pos hb]
        rfl
      · rw [if_neg hb]
        decide
    | closeLi =>
      simp only [groupF]
      by_cases hn : nextIsLi ts = false ∧ b = true
      · rw [if_pos hn]
        exact angleOk_append (by decide) (angleOk_append (by decide) (ih false hts))
      · rw [if_neg hn]
        exact angleOk_append (by decide) (ih b hts)
    | text s2 =>
      simp only [groupF]
      exact angleOk_append (hch s2 (List.mem_cons_self _ _)) (ih b hts)

/-! # The escaping stage removes every raw angle bracket -/

/-- After the less-than escape, no less-than sign remains. -/
theorem escLt_no_lt (s : List Char) : ∀ c ∈ escLt s, c ≠ '<' := by
  induction s with
  | nil => intro c hc; simp [escLt] at hc
  | cons c cs ih =>
    intro x hx
    simp only [escLt] at hx
    by_cases hc : c = '<'
    · rw [if_pos hc] at hx
      rcases List.mem_append.mp hx with h | h
      · exact (by decide : ∀ y ∈ "&lt;".data, y ≠ '<') x h
      · exact ih x h
    · rw [if_neg hc] at hx
      rcases List.mem_cons.mp hx with h | h
      · rw [h]; exact hc
      · exact ih x h

/-- The greater-than escape introduces no less-than sign. -/
theorem escGt_no_lt :
    ∀ (s : List Char), (∀ c ∈ s, c ≠ '<') → ∀ c ∈ escGt s, c ≠ '<' := by
  intro s
  induction s with
  | nil => intro _ c hc; simp [escGt] at hc
  | cons c cs ih =>
    intro hns x hx
    simp only [escGt] at hx
    by_cases hc : c = '>'
    · rw [if_pos hc] at hx
      rcases List.mem_append.mp hx with h | h
      · exact (by decide : ∀ y ∈ "&gt;".data, y ≠ '<') x h
      · exact ih (fun y hy => hns y (List.mem_cons_of_mem _ hy)) x h
    · rw [if_neg hc] at hx
      rcases List.mem_cons.mp hx with h | h
      · rw [h]; exact hns c (List.mem_cons_self c cs)
      · exact ih (fun y hy => hns y (List.mem_cons_of_mem _ hy)) x h

/-- After the greater-than escape, no greater-than sign remains. -/
theorem escGt_no_gt (s : List Char) : ∀ c ∈ escGt s, c ≠ '>' := by
  induction s with
  | nil => intro c hc; simp [escGt] at hc
  | cons c cs ih =>
    intro x hx
    simp only [escGt] at hx
    by_cases hc : c = '>'
    · rw [if_pos hc] at hx
      rcases List.mem_append.mp hx with h | h
      · exact (by decide : ∀ y ∈ "&gt;".data, y ≠ '>') x h
      · exact ih x h
    · rw [if_neg hc] at hx
      rcases List.mem_cons.mp hx with h | h
      · rw [h]; exact hc
      · exact ih x h

/-! # angleOk through the named stages and the whole pipeline -/

/-- The h3 stage preserves angleOk. -/
theorem angleOk_h3Stage (s : List Char) (h : angleOk s = true) :
    angleOk (h3Stage s) = true :=
  angleOk_mapLinesF _ (angleOk_headerLine _ _ _ (by decide) (by decide)) _ s h

/-- The h2 stage preserves angleOk. -/
theorem angleOk_h2Stage (s : List Char) (h : angleOk s = true) :
    angleOk (h2Stage s) = true :=
  angleOk_mapLinesF _ (angleOk_headerLine _ _ _ (by decide) (by decide)) _ s h

/-- The h1 stage preserves angleOk. -/
theorem angleOk_h1Stage (s : List Char) (h : angleOk s = true) :
    angleOk (h1Stage s) = true :=
  angleOk_mapLinesF _ (angleOk_headerLine _ _ _ (by decide) (by decide)) _ s h

/-- The list-item stage preserves angleOk. -/
theorem angleOk_liStage (s : List Char) (h : angleOk s = true) :
    angleOk (liStage s) = true :=
  angleOk_mapLinesF _ (angleOk_headerLine _ _ _ (by decide) (by decide)) _ s h

/-- The bold-italic stage preserves angleOk. -/
theorem angleOk_boldItalicStage (s : List Char) (h : angleOk s = true) :
    angleOk (boldItalicStage s) = true :=
  angleOk_starsF _ _ _ _ "**".data "**".data rfl rfl (by decide) (by decide) _ s h

/-- The bold stage preserves angleOk. -/
theorem angleOk_boldStage (s : List Char) (h : angleOk s = true) :
    angleOk (boldStage s) = true :=
  angleOk_starsF _ _ _ _ "*".data "*".data rfl rfl (by decide) (by decide) _ s h

/-- The italic stage preserves angleOk. -/
theorem angleOk_emStage (s : List Char) (h : angleOk s = true) :
    angleOk (emStage s) = true :=
  angleOk_starsF _ _ _ _ "".data "".data rfl rfl (by decide) (by decide) _ s h

/-- The link stage preserves angleOk. -/
theorem angleOk_linkStage (s : List Char) (h : angleOk s = true) :
    angleOk (linkStage s) = true :=
  angleOk_linkF _ s h

/-- The code stage preserves angleOk. -/
theorem angleOk_codeStage (s : List Char) (h : angleOk s = true) :
    angleOk (codeStage s) = true :=
  angleOk_codeF _ s h

/-- The paragraph-break stage preserves angleOk. -/
theorem angleOk_brkParaStage (s : List Char) (h : angleOk s = true) :
    angleOk (brkParaStage s) = true :=
  angleOk_brkParaF _ s h

/-- The br-stripping stage preserves angleOk. -/
theorem angleOk_stripBrLiStage (s : List Char) (h : angleOk s = true) :
    angleOk (stripBrLiStage s) = true :=
  angleOk_stripBrLiF _ s h

/-- The whole pipeline produces an angleOk string from any input. -/
theorem angleOk_mdPipeline (s : List Char) : angleOk (mdPipeline s) = true := by
  simp only [mdPipeline]
  refine groupF_angleOk _ false ?_
  intro ch hm
  refine tokenizeF_chunks _ [] _ ?_ ch hm
  simp only [List.reverse_nil, List.nil_append]
  apply angleOk_stripBrLiStage
  simp only [liPassOne]
  apply angleOk_brNl
  apply angleOk_brkParaStage
  apply angleOk_liStage
  apply angleOk_codeStage
  apply angleOk_linkStage
  apply angleOk_emStage
  apply angleOk_boldStage
  apply angleOk_boldItalicStage
  apply angleOk_h1Stage
  apply angleOk_h2Stage
  apply angleOk_h3Stage
  apply angleOk_of_no_lt
  exact escGt_no_lt _ (escLt_no_lt _)

/-- Claim C3: renderMarkdown escapes the ampersand, less-than and greater-than
characters before any tag-producing substitution — after the escaping stage no
raw angle bracket remains, for any input — so no raw HTML tag from the input
survives into the output: every less-than sign of the output opens one of the
whitelisted constructs (the angleOk property).  In particular the bold-tag
example is escaped to literal entity text. -/
theorem renderMarkdown_no_raw_tags :
    (∀ s : List Char, ∀ c ∈ escGt (escLt (escAmp s)), c ≠ '<' ∧ c ≠ '>')
    ∧ (∀ s : String, angleOk (renderMarkdown s).data = true)
    ∧ renderMarkdown "<b>x</b>" = "<p>&lt;b&gt;x&lt;/b&gt;</p>" := by
  refine ⟨?_, ?_, rfl⟩
  · intro s c hc
    exact ⟨escGt_no_lt _ (escLt_no_lt _) c hc, escGt_no_gt _ c hc⟩
  · intro s
    by_cases h : s = ""
    · subst h
      rfl
    · simp only [renderMarkdown, if_neg h]
      show angleOk ("<p>".data ++ mdPipeline s.data ++ "</p>".data) = true
      exact angleOk_append (angleOk_append (by decide) (angleOk_mdPipeline _)) (by decide)

/-! # Stages that leave trigger-free input unchanged -/

/-- The ampersand escape leaves ampersand-free input unchanged. -/
theorem escAmp_unchanged {s : List Char} (h : ∀ c ∈ s, c ≠ '&') : escAmp s = s := by
  induction s with
  | nil => rfl
  | cons c cs ih =>
    simp only [escAmp]
    rw [if_neg (h c (List.mem_cons_self c cs)),
        ih (fun x hx => h x (List.mem_cons_of_mem _ hx))]

/-- The less-than escape leaves bracket-free input unchanged. -/
theorem escLt_unchanged {s : List Char} (h : ∀ c ∈ s, c ≠ '<') : escLt s = s := by
  induction s with
  | nil => rfl
  | cons c cs ih =>
    simp only [escLt]
    rw [if_neg (h c (List.mem_cons_self c cs)),
        ih (fun x hx => h x (List.mem_cons_of_mem _ hx))]

/-- The greater-than escape leaves bracket-free input unchanged. -/
theorem escGt_unchanged {s : List Char} (h : ∀ c ∈ s, c ≠ '>') : escGt s = s := by
  induction s with
  | nil => rfl
  | cons c cs ih =>
    simp only [escGt]
    rw [if_neg (h c (List.mem_cons_self c cs)),
        ih (fun x hx => h x (List.mem_cons_of_mem _ hx))]

/-- A terminator-free input is a single line. -/
theorem breakAtTerm_no_term {s : List Char} (h : ∀ c ∈ s, isLineTerm c = false) :
    breakAtTerm s = (s, []) := by
  induction s with
  | nil => rfl
  | cons c cs ih =>
    simp only [breakAtTerm]
    rw [if_neg (by simp [h c (List.mem_cons_self c cs)]),
        ih (fun x hx => h x (List.mem_cons_of_mem _ hx))]

/-- On a single line, the line mapper is just the line transformer. -/
theorem mapLinesF_single (g : List Char → List Char) {s : List Char} {f : Nat}
    (hb : breakAtTerm s = (s, [])) (hf : 0 < f) :
    mapLinesF g f s = g s := by
  cases f with
  | zero => exact absurd hf (by omega)
  | succ f =>
    simp only [mapLinesF]
    rw [hb]

/-- A line not matching the marker is unchanged. -/
theorem headerLine_unchanged {mark opn cls s : List Char}
    (hp : pref mark s = false) : headerLine mark opn cls s = s := by
  simp only [headerLine]
  rw [if_neg (fun hand => by simp [hp] at hand)]

/-- A line-based stage leaves a single non-matching line unchanged. -/
theorem lineStage_unchanged (mark opn cls : List Char) {s : List Char}
    (hterm : ∀ c ∈ s, isLineTerm c = false) (hp : pref mark s = false) :
    mapLinesF (headerLine mark opn cls) (s.length + 1) s = s := by
  rw [mapLinesF_single _ (breakAtTerm_no_term hterm) (Nat.succ_pos _)]
  exact headerLine_unchanged hp

/-- The star scanner leaves star-free input unchanged. -/
theorem starsF_unchanged (opn cls pre post tl : List Char)
    (hopn : opn = '*' :: tl) :
    ∀ (f : Nat) (s : List Char), (∀ c ∈ s, c ≠ '*') →
      starsF opn cls pre post f s = s := by
  intro f
  induction f with
  | zero => intro s _; rfl
  | succ f ih =>
    intro s hch
    cases s with
    | nil => rfl
    | cons c cs =>
      simp only [starsF]
      have hx : ('*' == c) = false :=
        beq_eq_false_iff_ne.mpr (fun he => hch c (List.mem_cons_self c cs) he.symm)
      have hcond : pref opn (c :: cs) = false := by
        rw [hopn]; exact pref_head_false hx
      rw [if_neg (by simp [hcond]),
          ih cs (fun x hx2 => hch x (List.mem_cons_of_mem _ hx2))]

/-- The link scanner leaves bracket-free input unchanged. -/
theorem linkF_unchanged :
    ∀ (f : Nat) (s : List Char), (∀ c ∈ s, c ≠ '[') → linkF f s = s := by
  intro f
  induction f with
  | zero => intro s _; rfl
  | succ f ih =>
    intro s hch
    cases s with
    | nil => rfl
    | cons c cs =>
      simp only [linkF]
      rw [if_neg (hch c (List.mem_cons_self c cs)),
          ih cs (fun x hx => hch x (List.mem_cons_of_mem _ hx))]

/-- The code scanner leaves backtick-free input unchanged. -/
theorem codeF_unchanged :
    ∀ (f : Nat) (s : List Char), (∀ c ∈ s, c ≠ '\u0060') → codeF f s = s := by
  intro f
  induction f with
  | zero => intro s _; rfl
  | succ f ih =>
    intro s hch
    cases s with
    | nil => rfl
    | cons c cs =>
      simp only [codeF]
      rw [if_neg (hch c (List.mem_cons_self c cs)),
          ih cs (fun x hx => hch x (List.mem_cons_of_mem _ hx))]

/-- The paragraph-break scanner leaves newline-free input unchanged. -/
theorem brkParaF_unchanged :
    ∀ (f : Nat) (s : List Char), (∀ c ∈ s, c ≠ '\n') → brkParaF f s = s := by
  intro f
  induction f with
  | zero => intro s _; rfl
  | succ f ih =>
    intro s hch
    cases s with
    | nil => rfl
    | cons c cs =>
      simp only [brkParaF]
      have hx : ('\n' == c) = false :=
        beq_eq_false_iff_ne.mpr (fun he => hch c (List.mem_cons_self c cs) he.symm)
      rw [if_neg (by simp [pref_head_false hx]),
          ih cs (fun x hx2 => hch x (List.mem_cons_of_mem _ hx2))]

/-- The newline scanner leaves newline-free input unchanged. -/
theorem brNl_unchanged :
    ∀ (s : List Char), (∀ c ∈ s, c ≠ '\n') → brNl s = s := by
  intro s
  induction s with
  | nil => intro _; rfl
  | cons c cs ih =>
    intro hch
    simp only [brNl]
    rw [if_neg (hch c (List.mem_cons_self c cs)),
        ih (fun x hx => hch x (List.mem_cons_of_mem _ hx))]

/-! # li-freeness and the list passes -/

/-- liFree passes to the tail. -/
theorem liFree_tail {c : Char} {cs : List Char} (h : liFree (c :: cs) = true) :
    liFree cs = true := by
  simp only [liFree, Bool.and_eq_true] at h
  exact h.2

/-- A prefix gives a one-character prefix. -/
theorem pref_take1 {a : Char} {rest s : List Char} (h : pref (a :: rest) s = true) :
    pref [a] s = true := by
  cases s with
  | nil => simp [pref] at h
  | cons c cs =>
    simp [pref] at h ⊢
    exact h.1

/-- A prefix gives a two-character prefix. -/
theorem pref_take2 {a b : Char} {rest s : List Char}
    (h : pref (a :: b :: rest) s = true) : pref [a, b] s = true := by
  cases s with
  | nil => simp [pref] at h
  | cons c cs =>
    cases cs with
    | nil => simp [pref] at h
    | cons d ds =>
      simp [pref] at h ⊢
      exact ⟨h.1, h.2.1⟩

/-- An li-free list has no li opening tag at its front. -/
theorem liFree_not_liOpen {s : List Char} (h : liFree s = true) :
    pref liOpenT s = false := by
  cases hp : pref liOpenT s with
  | false => rfl
  | true =>
    exfalso
    cases s with
    | nil => exact absurd hp (by decide)
    | cons c cs =>
      have hlo : liOpenT = '<' :: 'l' :: "i>".data := rfl
      rw [hlo] at hp
      simp [pref] at hp
      obtain ⟨hc, hrest⟩ := hp
      have h1 : pref ['l'] cs = true := pref_take1 hrest
      rw [← hc] at h
      simp only [liFree, Bool.and_eq_true] at h
      simp [h1] at h

/-- An li-free list has no li closing tag at its front. -/
theorem liFree_not_liClose {s : List Char} (h : liFree s = true) :
    pref liCloseT s = false := by
  cases hp : pref liCloseT s with
  | false => rfl
  | true =>
    exfalso
    cases s with
    | nil => exact absurd hp (by decide)
    | cons c cs =>
      have hlo : liCloseT = '<' :: '/' :: 'l' :: "i>".data := rfl
      rw [hlo] at hp
      simp [pref] at hp
      obtain ⟨hc, hrest⟩ := hp
      have h1 : pref ['/', 'l'] cs = true := pref_take2 hrest
      rw [← hc] at h
      simp only [liFree, Bool.and_eq_true] at h
      simp [h1] at h

/-- liFree passes to drops. -/
theorem liFree_drop {s : List Char} (n : Nat) (h : liFree s = true) :
    liFree (List.drop n s) = true := by
  induction n generalizing s with
  | zero => simpa using h
  | succ n ih =>
    cases s with
    | nil => simpa using h
    | cons c cs => simpa using ih (liFree_tail h)

/-- An li-free list has no br-then-li token at its front. -/
theorem liFree_not_brLi {s : List Char} (h : liFree s = true) :
    pref brLiT s = false := by
  cases hp : pref brLiT s with
  | false => rfl
  | true =>
    exfalso
    have hdec := pref_decompose hp
    have h4 : pref liOpenT (List.drop 4 s) = true := by
      rw [hdec]
      show pref liOpenT (liOpenT ++ List.drop brLiT.length s) = true
      exact pref_refl_append _ _
    have h5 := liFree_drop 4 h
    rw [liFree_not_liOpen h5] at h4
    exact absurd h4 (by simp)

/-- Lists without a less-than sign are li-free. -/
theorem liFree_of_no_lt {s : List Char} (h : ∀ c ∈ s, c ≠ '<') :
    liFree s = true := by
  induction s with
  | nil => rfl
  | cons c cs ih =>
    simp only [liFree, Bool.and_eq_true]
    constructor
    · have hx : (c == '<') = false :=
        beq_eq_false_iff_ne.mpr (h c (List.mem_cons_self c cs))
      simp [hx]
    · exact ih (fun x hx => h x (List.mem_cons_of_mem _ hx))

/-- Prepending a less-than-free list preserves li-freeness. -/
theorem liFree_append_left {a b : List Char} (ha : ∀ c ∈ a, c ≠ '<')
    (hb : liFree b = true) : liFree (a ++ b) = true := by
  induction a with
  | nil => simpa using hb
  | cons c cs ih =>
    rw [List.cons_append]
    simp only [liFree, Bool.and_eq_true]
    constructor
    · have hx : (c == '<') = false :=
        beq_eq_false_iff_ne.mpr (ha c (List.mem_cons_self c cs))
      simp [hx]
    · exact ih (fun x hx => ha x (List.mem_cons_of_mem _ hx))

/-- A less-than sign followed by neither the letter l nor a slash-l pair
preserves li-freeness. -/
theorem liFree_cons_lt {s : List Char} (h1 : pref ['l'] s = false)
    (h2 : pref ['/', 'l'] s = false) (h : liFree s = true) :
    liFree ('<' :: s) = true := by
  simp only [liFree, Bool.and_eq_true]
  exact ⟨by simp [h1, h2], h⟩

/-- The br-stripping scanner leaves li-free input unchanged. -/
theorem stripBrLiF_unchanged :
    ∀ (f : Nat) (s : List Char), liFree s = true → stripBrLiF f s = s := by
  intro f
  induction f with
  | zero => intro s _; rfl
  | succ f ih =>
    intro s hs
    cases s with
    | nil => rfl
    | cons c cs =>
      simp only [stripBrLiF]
      rw [if_neg (by simp [liFree_not_brLi hs]),
          if_neg (by simp [liFree_not_liOpen hs]),
          ih cs (liFree_tail hs)]

/-- The tokenizer puts li-free input into a single text entry. -/
theorem tokenizeF_single :
    ∀ (f : Nat) (acc s : List Char), liFree s = true →
      tokenizeF f acc s = [.text (acc.reverse ++ s)] := by
  intro f
  induction f with
  | zero => intro acc s _; rfl
  | succ f ih =>
    intro acc s hs
    cases s with
    | nil => simp [tokenizeF]
    | cons c cs =>
      simp only [tokenizeF]
      rw [if_neg (by simp [liFree_not_liOpen hs]),
          if_neg (by simp [liFree_not_liClose hs]),
          ih (c :: acc) cs (liFree_tail hs)]
      simp

/-! # Exact computation of a single link match -/

/-- A negated-class scan ending at its excluded character. -/
theorem classScan_exact (bad : Char) :
    ∀ (t acc r : List Char), (∀ c ∈ t, c ≠ bad) →
      classScan bad acc (t ++ bad :: r) = some (acc.reverse ++ t, r) := by
  intro t
  induction t with
  | nil =>
    intro acc r _
    simp only [List.nil_append, classScan]
    simp
  | cons x ts ih =>
    intro acc r hch
    have hx : ¬ (x = bad) := hch x (List.mem_cons_self x ts)
    simp only [List.cons_append, classScan]
    rw [if_neg hx]
    show classScan bad (x :: acc) (ts ++ bad :: r) = some (acc.reverse ++ x :: ts, r)
    rw [ih (x :: acc) r (fun c hc => hch c (List.mem_cons_of_mem _ hc))]
    simp

/-- A negated-class capture ending at its excluded character. -/
theorem classUntil_exact (bad : Char) (t r : List Char) (h0 : t ≠ [])
    (hch : ∀ c ∈ t, c ≠ bad) :
    classUntil bad (t ++ bad :: r) = some (t, r) := by
  cases t with
  | nil => exact absurd rfl h0
  | cons x ts =>
    have hx : ¬ (x = bad) := hch x (List.mem_cons_self x ts)
    simp only [List.cons_append, classUntil]
    rw [if_neg hx]
    show classScan bad [x] (ts ++ bad :: r) = some (x :: ts, r)
    rw [classScan_exact bad ts [x] r (fun c hc => hch c (List.mem_cons_of_mem _ hc))]
    simp

/-- The link attempt on an exact bracketed-text-parenthesised-url tail. -/
theorem linkTry_exact (txt url : List Char) (ht0 : txt ≠ [])
    (ht : ∀ c ∈ txt, c ≠ ']') (hu0 : url ≠ []) (hu : ∀ c ∈ url, c ≠ ')') :
    linkTry (txt ++ ']' :: '(' :: (url ++ [')'])) = some (txt, url, []) := by
  simp only [linkTry]
  rw [classUntil_exact ']' txt ('(' :: (url ++ [')'])) ht0 ht]
  show (if '(' = '(' then
          match classUntil ')' (url ++ [')']) with
          | some (url, r3) => some (txt, url, r3)
          | none => none
        else none) = some (txt, url, [])
  rw [if_pos rfl]
  have hsp : url ++ [')'] = url ++ ')' :: [] := rfl
  rw [hsp, classUntil_exact ')' url [] hu0 hu]

/-- The link scanner on the empty list. -/
theorem linkF_nil (f : Nat) : linkF f [] = [] := by
  cases f <;> rfl

/-- The link scanner on a single whole link emits exactly the anchor. -/
theorem linkF_exact (txt url : List Char) (f : Nat) (hf : 0 < f)
    (ht0 : txt ≠ []) (ht : ∀ c ∈ txt, c ≠ ']')
    (hu0 : url ≠ []) (hu : ∀ c ∈ url, c ≠ ')') :
    linkF f ('[' :: (txt ++ ']' :: '(' :: (url ++ [')']))) =
      aOpen ++ url ++ aMid ++ txt ++ aClose := by
  cases f with
  | zero => exact absurd hf (by omega)
  | succ f =>
    simp only [linkF]
    rw [if_pos trivial, linkTry_exact txt url ht0 ht hu0 hu]
    show aOpen ++ url ++ aMid ++ txt ++ aClose ++ linkF f [] = _
    rw [linkF_nil]
    simp

/-! # The anchor produced by a single link -/

/-- Character membership in the right-associated anchor splits into its five
parts. -/
theorem anchor_chars (u t : List Char) (P : Char → Prop)
    (hOpen : ∀ c ∈ aOpen, P c) (hMid : ∀ c ∈ aMid, P c)
    (hClose : ∀ c ∈ aClose, P c)
    (hu : ∀ c ∈ u, P c) (ht : ∀ c ∈ t, P c) :
    ∀ c ∈ (aOpen ++ (u ++ (aMid ++ (t ++ aClose)))), P c := by
  intro c hc
  simp only [List.mem_append] at hc
  rcases hc with h | h | h | h | h
  exacts [hOpen c h, hu c h, hMid c h, ht c h, hClose c h]

/-- The anchor does not start with a dash-space list marker. -/
theorem anchor_not_dash (u t : List Char) :
    pref "- ".data (aOpen ++ (u ++ (aMid ++ (t ++ aClose)))) = false := by
  rw [show aOpen ++ (u ++ (aMid ++ (t ++ aClose)))
      = '<' :: ("a href=\"".data ++ (u ++ (aMid ++ (t ++ aClose)))) from rfl]
  rw [show "- ".data = '-' :: " ".data from rfl]
  exact pref_head_false (by decide)

/-- The anchor is li-free when the url and text contain no less-than sign. -/
theorem liFree_anchor (u t : List Char) (hu : ∀ c ∈ u, c ≠ '<')
    (ht : ∀ c ∈ t, c ≠ '<') :
    liFree (aOpen ++ (u ++ (aMid ++ (t ++ aClose)))) = true := by
  have h1 : liFree aClose = true := by decide
  have h2 : liFree (t ++ aClose) = true := liFree_append_left ht h1
  have h3 : liFree (aMid ++ (t ++ aClose)) = true :=
    liFree_append_left (by decide) h2
  have h4 : liFree (u ++ (aMid ++ (t ++ aClose))) = true := liFree_append_left hu h3
  rw [show aOpen ++ (u ++ (aMid ++ (t ++ aClose)))
      = '<' :: ("a href=\"".data ++ (u ++ (aMid ++ (t ++ aClose)))) from rfl]
  refine liFree_cons_lt ?_ ?_ ?_
  · rw [show "a href=\"".data ++ (u ++ (aMid ++ (t ++ aClose)))
        = 'a' :: (" href=\"".data ++ (u ++ (aMid ++ (t ++ aClose)))) from rfl]
    exact pref_head_false (by decide)
  · rw [show "a href=\"".data ++ (u ++ (aMid ++ (t ++ aClose)))
        = 'a' :: (" href=\"".data ++ (u ++ (aMid ++ (t ++ aClose)))) from rfl]
    exact pref_head_false (by decide)
  · exact liFree_append_left (by decide) h4

/-- Claim C8: a markdown link whose text and url consist of characters that no
other substitution reacts to is rendered as an anchor whose target attribute
is the blank context and whose rel attribute is the no-opener value — the
emitted anchor carries the fixed attribute text verbatim. -/
theorem renderMarkdown_link (txt url : String)
    (ht0 : txt ≠ "") (hu0 : url ≠ "")
    (ht : ∀ c ∈ txt.data, linkSafe c = true)
    (hu : ∀ c ∈ url.data, linkSafe c = true) :
    renderMarkdown ("[" ++ txt ++ "](" ++ url ++ ")") =
      "<p><a href=\"" ++ url ++ "\" target=\"_blank\" rel=\"noopener\">" ++ txt
        ++ "</a></p>" := by
  have hchar : ∀ c : Char, linkSafe c = true →
      c ≠ '&' ∧ c ≠ '<' ∧ c ≠ '>' ∧ c ≠ '*' ∧ c ≠ '`' ∧ c ≠ '[' ∧ c ≠ ']' ∧
      c ≠ '(' ∧ c ≠ ')' ∧ c ≠ '\n' ∧ isLineTerm c = false := by
    intro c h
    refine ⟨fun he => ?_, fun he => ?_, fun he => ?_, fun he => ?_, fun he => ?_,
      fun he => ?_, fun he => ?_, fun he => ?_, fun he => ?_, fun he => ?_, ?_⟩
    · subst he; exact absurd h (by decide)
    · subst he; exact absurd h (by decide)
    · subst he; exact absurd h (by decide)
    · subst he; exact absurd h (by decide)
    · subst he; exact absurd h (by decide)
    · subst he; exact absurd h (by decide)
    · subst he; exact absurd h (by decide)
    · subst he; exact absurd h (by decide)
    · subst he; exact absurd h (by decide)
    · subst he; exact absurd h (by decide)
    · cases hl : isLineTerm c with
      | false => rfl
      | true =>
        exfalso
        simp [isLineTerm] at hl
        rcases hl with ((he | he) | he) | he <;> (subst he; exact absurd h (by decide))
  have htd0 : txt.data ≠ [] := by
    intro he
    apply ht0
    cases txt with
    | mk d =>
      rw [show ("" : String) = String.mk [] from rfl]
      exact congrArg String.mk he
  have hud0 : url.data ≠ [] := by
    intro he
    apply hu0
    cases url with
    | mk d =>
      rw [show ("" : String) = String.mk [] from rfl]
      exact congrArg String.mk he
  have hdata : ("[" ++ txt ++ "](" ++ url ++ ")").data
      = '[' :: (txt.data ++ ']' :: '(' :: (url.data ++ [')'])) := by
    show (((['['] ++ txt.data) ++ [']', '(']) ++ url.data) ++ [')']
        = '[' :: (txt.data ++ ']' :: '(' :: (url.data ++ [')']))
    simp [List.append_assoc]
  have hne : ("[" ++ txt ++ "](" ++ url ++ ")") ≠ "" := by
    intro he
    have h0 : ("[" ++ txt ++ "](" ++ url ++ ")").data = [] := by rw [he]
    rw [hdata] at h0
    exact absurd h0 (by simp)
  have hmemL : ∀ c ∈ ('[' :: (txt.data ++ ']' :: '(' :: (url.data ++ [')']))),
      c = '[' ∨ c = ']' ∨ c = '(' ∨ c = ')' ∨ c ∈ txt.data ∨ c ∈ url.data := by
    intro c hc
    simp only [List.mem_cons, List.mem_append, List.mem_singleton] at hc
    tauto
  have hLgen : ∀ (P : Char → Prop), P '[' → P ']' → P '(' → P ')' →
      (∀ c, linkSafe c = true → P c) →
      ∀ c ∈ ('[' :: (txt.data ++ ']' :: '(' :: (url.data ++ [')']))), P c := by
    intro P p1 p2 p3 p4 pf c hc
    rcases hmemL c hc with h | h | h | h | h | h
    · subst h; exact p1
    · subst h; exact p2
    · subst h; exact p3
    · subst h; exact p4
    · exact pf c (ht c h)
    · exact pf c (hu c h)
  simp only [renderMarkdown, if_neg hne]
  rw [hdata]
  simp only [mdPipeline]
  rw [escAmp_unchanged (hLgen (fun c => c ≠ '&') (by decide) (by decide) (by decide)
        (by decide) (fun c h => (hchar c h).1))]
  rw [escLt_unchanged (hLgen (fun c => c ≠ '<') (by decide) (by decide) (by decide)
        (by decide) (fun c h => (hchar c h).2.1))]
  rw [escGt_unchanged (hLgen (fun c => c ≠ '>') (by decide) (by decide) (by decide)
        (by decide) (fun c h => (hchar c h).2.2.1))]
  have hLterm : ∀ c ∈ ('[' :: (txt.data ++ ']' :: '(' :: (url.data ++ [')']))),
      isLineTerm c = false :=
    hLgen (fun c => isLineTerm c = false) (by decide) (by decide) (by decide)
      (by decide) (fun c h => (hchar c h).2.2.2.2.2.2.2.2.2.2)
  have hLstar : ∀ c ∈ ('[' :: (txt.data ++ ']' :: '(' :: (url.data ++ [')']))),
      c ≠ '*' :=
    hLgen (fun c => c ≠ '*') (by decide) (by decide) (by decide) (by decide)
      (fun c h => (hchar c h).2.2.2.1)
  have hH3 : h3Stage ('[' :: (txt.data ++ ']' :: '(' :: (url.data ++ [')'])))
      = '[' :: (txt.data ++ ']' :: '(' :: (url.data ++ [')'])) := by
    simp only [h3Stage]
    exact lineStage_unchanged _ _ _ hLterm (pref_head_false (by decide))
  have hH2 : h2Stage ('[' :: (txt.data ++ ']' :: '(' :: (url.data ++ [')'])))
      = '[' :: (txt.data ++ ']' :: '(' :: (url.data ++ [')'])) := by
    simp only [h2Stage]
    exact lineStage_unchanged _ _ _ hLterm (pref_head_false (by decide))
  have hH1 : h1Stage ('[' :: (txt.data ++ ']' :: '(' :: (url.data ++ [')'])))
      = '[' :: (txt.data ++ ']' :: '(' :: (url.data ++ [')'])) := by
    simp only [h1Stage]
    exact lineStage_unchanged _ _ _ hLterm (pref_head_false (by decide))
  rw [hH3, hH2, hH1]
  rw [show boldItalicStage ('[' :: (txt.data ++ ']' :: '(' :: (url.data ++ [')'])))
      = '[' :: (txt.data ++ ']' :: '(' :: (url.data ++ [')'])) from by
    simp only [boldItalicStage]
    exact starsF_unchanged _ _ _ _ "**".data rfl _ _ hLstar]
  rw [show boldStage ('[' :: (txt.data ++ ']' :: '(' :: (url.data ++ [')'])))
      = '[' :: (txt.data ++ ']' :: '(' :: (url.data ++ [')'])) from by
    simp only [boldStage]
    exact starsF_unchanged _ _ _ _ "*".data rfl _ _ hLstar]
  rw [show emStage ('[' :: (txt.data ++ ']' :: '(' :: (url.data ++ [')'])))
      = '[' :: (txt.data ++ ']' :: '(' :: (url.data ++ [')'])) from by
    simp only [emStage]
    exact starsF_unchanged _ _ _ _ "".data rfl _ _ hLstar]
  rw [show linkStage ('[' :: (txt.data ++ ']' :: '(' :: (url.data ++ [')'])))
      = aOpen ++ url.data ++ aMid ++ txt.data ++ aClose from by
    simp only [linkStage]
    exact linkF_exact txt.data url.data _ (by simp) htd0
      (fun c h => (hchar c (ht c h)).2.2.2.2.2.2.1)
      hud0 (fun c h => (hchar c (hu c h)).2.2.2.2.2.2.2.2.1)]
  rw [show aOpen ++ url.data ++ aMid ++ txt.data ++ aClose
      = aOpen ++ (url.data ++ (aMid ++ (txt.data ++ aClose))) from by
    simp [List.append_assoc]]
  rw [show codeStage (aOpen ++ (url.data ++ (aMid ++ (txt.data ++ aClose))))
      = aOpen ++ (url.data ++ (aMid ++ (txt.data ++ aClose))) from by
    simp only [codeStage]
    exact codeF_unchanged _ _ (anchor_chars _ _ _ (by decide) (by decide) (by decide)
      (fun c h => (hchar c (hu c h)).2.2.2.2.1)
      (fun c h => (hchar c (ht c h)).2.2.2.2.1))]
  rw [show liStage (aOpen ++ (url.data ++ (aMid ++ (txt.data ++ aClose))))
      = aOpen ++ (url.data ++ (aMid ++ (txt.data ++ aClose))) from by
    simp only [liStage]
    exact lineStage_unchanged _ _ _
      (anchor_chars _ _ _ (by decide) (by decide) (by decide)
        (fun c h => (hchar c (hu c h)).2.2.2.2.2.2.2.2.2.2)
        (fun c h => (hchar c (ht c h)).2.2.2.2.2.2.2.2.2.2))
      (anchor_not_dash _ _)]
  rw [show brkParaStage (aOpen ++ (url.data ++ (aMid ++ (txt.data ++ aClose))))
      = aOpen ++ (url.data ++ (aMid ++ (txt.data ++ aClose))) from by
    simp only [brkParaStage]
    exact brkParaF_unchanged _ _ (anchor_chars _ _ _ (by decide) (by decide)
      (by decide) (fun c h => (hchar c (hu c h)).2.2.2.2.2.2.2.2.2.1)
      (fun c h => (hchar c (ht c h)).2.2.2.2.2.2.2.2.2.1))]
  rw [show brNl (aOpen ++ (url.data ++ (aMid ++ (txt.data ++ aClose))))
      = aOpen ++ (url.data ++ (aMid ++ (txt.data ++ aClose))) from
    brNl_unchanged _ (anchor_chars _ _ _ (by decide) (by decide) (by decide)
      (fun c h => (hchar c (hu c h)).2.2.2.2.2.2.2.2.2.1)
      (fun c h => (hchar c (ht c h)).2.2.2.2.2.2.2.2.2.1))]
  simp only [liPassOne]
  have hliFree : liFree (aOpen ++ (url.data ++ (aMid ++ (txt.data ++ aClose)))) = true :=
    liFree_anchor _ _ (fun c h => (hchar c (hu c h)).2.1)
      (fun c h => (hchar c (ht c h)).2.1)
  rw [show stripBrLiStage (aOpen ++ (url.data ++ (aMid ++ (txt.data ++ aClose))))
      = aOpen ++ (url.data ++ (aMid ++ (txt.data ++ aClose))) from by
    simp only [stripBrLiStage]
    exact stripBrLiF_unchanged _ _ hliFree]
  rw [tokenizeF_single _ [] _ hliFree]
  rw [show groupF false [LiTok.text (([] : List Char).reverse
        ++ (aOpen ++ (url.data ++ (aMid ++ (txt.data ++ aClose)))))]
      = aOpen ++ (url.data ++ (aMid ++ (txt.data ++ aClose))) from by
    simp [groupF]]
  show String.mk ("<p>".data
      ++ (aOpen ++ (url.data ++ (aMid ++ (txt.data ++ aClose)))) ++ "</p>".data)
    = String.mk (((("<p><a href=\"".data ++ url.data)
      ++ "\" target=\"_blank\" rel=\"noopener\">".data) ++ txt.data)
      ++ "</a></p>".data)
  refine congrArg String.mk ?_
  simp only [List.append_assoc]
  rfl

/-- Witness for claim C8 at the concrete example of the specification. -/
theorem renderMarkdown_link_witness :
    renderMarkdown "[x](http://e.com)" =
      "<p><a href=\"http://e.com\" target=\"_blank\" rel=\"noopener\">x</a></p>" := by
  have h := renderMarkdown_link "x" "http://e.com" (by decide) (by decide)
    (by decide) (by decide)
  exact h

/-! # Occurrence-count lemmas -/

/-- A nonempty pattern has no occurrence in the empty list. -/
theorem occCount_nil (p0 : Char) (pt : List Char) : occCount (p0 :: pt) [] = 0 := rfl

/-- Extending the list on the left cannot lose occurrences. -/
theorem occCount_cons_ge (pat : List Char) (c : Char) (cs : List Char) :
    occCount pat cs ≤ occCount pat (c :: cs) := by
  simp only [occCount]
  omega

/-- Occurrences of the two sides survive into a concatenation. -/
theorem occCount_append_ge (p0 : Char) (pt a b : List Char) :
    occCount (p0 :: pt) a + occCount (p0 :: pt) b ≤ occCount (p0 :: pt) (a ++ b) := by
  induction a with
  | nil => simp [occCount_nil]
  | cons x a2 ih =>
    rw [List.cons_append]
    simp only [occCount]
    by_cases hp : pref (p0 :: pt) (x :: a2) = true
    · have hq : pref (p0 :: pt) (x :: (a2 ++ b)) = true := by
        have := pref_append_right b hp
        rwa [List.cons_append] at this
      rw [if_pos hp, if_pos hq]
      omega
    · by_cases hq : pref (p0 :: pt) (x :: (a2 ++ b)) = true
      · rw [if_neg hp, if_pos hq]; omega
      · rw [if_neg hp, if_neg hq]; omega

/-- No occurrence can span a boundary character the pattern avoids. -/
theorem occCount_append_cons_le (p0 : Char) (pt : List Char) {c : Char}
    (hc : c ∉ p0 :: pt) (a b : List Char) :
    occCount (p0 :: pt) (a ++ c :: b)
      ≤ occCount (p0 :: pt) a + occCount (p0 :: pt) (c :: b) := by
  induction a with
  | nil => simp [occCount_nil]
  | cons x a2 ih =>
    rw [List.cons_append]
    have hu1 : occCount (p0 :: pt) (x :: (a2 ++ c :: b))
        = (if pref (p0 :: pt) (x :: (a2 ++ c :: b)) = true then 1 else 0)
          + occCount (p0 :: pt) (a2 ++ c :: b) := rfl
    have hu2 : occCount (p0 :: pt) (x :: a2)
        = (if pref (p0 :: pt) (x :: a2) = true then 1 else 0)
          + occCount (p0 :: pt) a2 := rfl
    rw [hu1, hu2]
    by_cases hp : pref (p0 :: pt) (x :: (a2 ++ c :: b)) = true
    · have hq : pref (p0 :: pt) (x :: a2) = true := by
        have h2 : pref (p0 :: pt) ((x :: a2) ++ c :: b) = true := by
          rwa [List.cons_append]
        exact pref_cross h2 hc
      rw [if_pos hp, if_pos hq]
      omega
    · rw [if_neg hp]
      by_cases hq : pref (p0 :: pt) (x :: a2) = true
      · rw [if_pos hq]; omega
      · rw [if_neg hq]; omega

/-- A region in which no character matches the pattern head contributes no
occurrence starts. -/
theorem occCount_skip (p0 : Char) (pt : List Char) {mark : List Char}
    (hm : ∀ m ∈ mark, m ≠ p0) (X : List Char) :
    occCount (p0 :: pt) (mark ++ X) = occCount (p0 :: pt) X := by
  induction mark with
  | nil => simp
  | cons m mk ih =>
    rw [List.cons_append]
    simp only [occCount]
    have hx : (p0 == m) = false :=
      beq_eq_false_iff_ne.mpr (fun he => hm m (List.mem_cons_self m mk) he.symm)
    rw [if_neg (by simp [pref_head_false hx])]
    simpa using ih (fun x hx2 => hm x (List.mem_cons_of_mem _ hx2))

/-- A single leading character that is not the pattern head contributes no
occurrence start. -/
theorem occCount_cons_ne (p0 : Char) (pt : List Char) {c : Char}
    (h : c ≠ p0) (cs : List Char) :
    occCount (p0 :: pt) (c :: cs) = occCount (p0 :: pt) cs := by
  have := @occCount_skip p0 pt [c] (by simpa using h) cs
  simpa using this

/-- Building a prefix test from its head and tail. -/
theorem pref_cons_of_tail {p0 c : Char} {pt out : List Char}
    (h1 : (p0 == c) = true) (h2 : pref pt out = true) :
    pref (p0 :: pt) (c :: out) = true := by
  simp [pref, h1, h2]

/-- One copied character of a scanner preserves the occurrence bound when a
pattern occurrence at the current position survives. -/
theorem occ_copy_step (p0 : Char) (pt : List Char) (c : Char) (cs out : List Char)
    (hout : occCount (p0 :: pt) cs ≤ occCount (p0 :: pt) out)
    (htr : pref (p0 :: pt) (c :: cs) = true → pref (p0 :: pt) (c :: out) = true) :
    occCount (p0 :: pt) (c :: cs) ≤ occCount (p0 :: pt) (c :: out) := by
  simp only [occCount]
  by_cases hp : pref (p0 :: pt) (c :: cs) = true
  · rw [if_pos hp, if_pos (htr hp)]
    omega
  · rw [if_neg hp]
    by_cases hq : pref (p0 :: pt) (c :: out) = true
    · rw [if_pos hq]; omega
    · rw [if_neg hq]; omega

/-- The code scanner does not lose occurrences of a backtick-free pattern. -/
theorem occ_codeF (p0 : Char) (pt : List Char) (htick : '\u0060' ∉ p0 :: pt) :
    ∀ (f : Nat) (s : List Char),
      occCount (p0 :: pt) s ≤ occCount (p0 :: pt) (codeF f s) := by
  have hp0 : p0 ≠ '\u0060' := fun he => htick (by rw [← he]; exact List.mem_cons_self _ _)
  have hptick : '\u0060' ∉ pt := fun hm => htick (List.mem_cons_of_mem _ hm)
  intro f
  induction f with
  | zero => intro s; exact Nat.le_refl _
  | succ f ih =>
    intro s
    cases s with
    | nil => exact Nat.le_refl _
    | cons c cs =>
      simp only [codeF]
      by_cases hc : c = '\u0060'
      · rw [if_pos hc]
        cases h1 : classUntil '\u0060' cs with
        | none =>
          rw [occCount_cons_ne p0 pt (by rw [hc]; exact fun he => hp0 he.symm) cs]
          calc occCount (p0 :: pt) cs ≤ occCount (p0 :: pt) (codeF f cs) := ih cs
            _ ≤ occCount (p0 :: pt) (c :: codeF f cs) := occCount_cons_ge _ _ _
        | some p =>
          obtain ⟨cap, r⟩ := p
          show occCount (p0 :: pt) (c :: cs)
            ≤ occCount (p0 :: pt) ("<code>".data ++ cap ++ "</code>".data ++ codeF f r)
          have hcs := classUntil_spec h1
          have hin : occCount (p0 :: pt) (c :: cs)
              ≤ occCount (p0 :: pt) cap + occCount (p0 :: pt) r := by
            rw [occCount_cons_ne p0 pt (by rw [hc]; exact fun he => hp0 he.symm) cs, hcs]
            have h2 := occCount_append_cons_le p0 pt htick cap r
            have h3 : occCount (p0 :: pt) ('`' :: r) = occCount (p0 :: pt) r :=
              occCount_cons_ne p0 pt (fun he => hp0 he.symm) r
            omega
          have h4 := occCount_append_ge p0 pt ("<code>".data ++ cap ++ "</code>".data)
            (codeF f r)
          have h5 := occCount_append_ge p0 pt ("<code>".data ++ cap) ("</code>".data)
          have h6 := occCount_append_ge p0 pt "<code>".data cap
          have h7 := ih r
          omega
      · rw [if_neg hc]
        refine occ_copy_step p0 pt c cs (codeF f cs) (ih cs) (fun hp => ?_)
        simp only [pref] at hp
        rw [Bool.and_eq_true] at hp
        have hd := pref_decompose hp.2
        refine pref_cons_of_tail hp.1 ?_
        rw [hd]
        exact codeF_pref_preserved pt hptick f _

/-- The newline scanner does not lose occurrences of a newline-free
pattern. -/
theorem occ_brNl (p0 : Char) (pt : List Char) (hnl : '\n' ∉ p0 :: pt) :
    ∀ (s : List Char), occCount (p0 :: pt) s ≤ occCount (p0 :: pt) (brNl s) := by
  have hp0 : p0 ≠ '\n' := fun he => hnl (by rw [← he]; exact List.mem_cons_self _ _)
  have hptn : '\n' ∉ pt := fun hm => hnl (List.mem_cons_of_mem _ hm)
  intro s
  induction s with
  | nil => exact Nat.le_refl _
  | cons c cs ih =>
    simp only [brNl]
    by_cases hc : c = '\n'
    · rw [if_pos hc]
      have h1 : occCount (p0 :: pt) (c :: cs) = occCount (p0 :: pt) cs :=
        occCount_cons_ne p0 pt (by rw [hc]; exact fun he => hp0 he.symm) cs
      have h4 := occCount_append_ge p0 pt "<br>".data (brNl cs)
      have h5 : occCount (p0 :: pt) (c :: cs)
          ≤ occCount (p0 :: pt) ("<br>".data ++ brNl cs) := by omega
      exact h5
    · rw [if_neg hc]
      refine occ_copy_step p0 pt c cs (brNl cs) ih (fun hp => ?_)
      simp only [pref] at hp
      rw [Bool.and_eq_true] at hp
      have hd := pref_decompose hp.2
      refine pref_cons_of_tail hp.1 ?_
      rw [hd]
      exact brNl_pref_preserved pt hptn _

/-- The paragraph-break scanner does not lose occurrences of a newline-free
pattern. -/
theorem occ_brkParaF (p0 : Char) (pt : List Char) (hnl : '\n' ∉ p0 :: pt) :
    ∀ (f : Nat) (s : List Char),
      occCount (p0 :: pt) s ≤ occCount (p0 :: pt) (brkParaF f s) := by
  have hp0 : p0 ≠ '\n' := fun he => hnl (by rw [← he]; exact List.mem_cons_self _ _)
  have hptn : '\n' ∉ pt := fun hm => hnl (List.mem_cons_of_mem _ hm)
  intro f
  induction f with
  | zero => intro s; exact Nat.le_refl _
  | succ f ih =>
    intro s
    cases s with
    | nil => exact Nat.le_refl _
    | cons c cs =>
      simp only [brkParaF]
      by_cases hp : pref ['\n', '\n'] (c :: cs) = true
      · rw [if_pos hp]
        cases cs with
        | nil => simp [pref] at hp
        | cons c2 cs2 =>
          rw [show pref ['\n', '\n'] (c :: c2 :: cs2)
              = (('\n' == c) && (('\n' == c2) && pref ([] : List Char) cs2))
              from rfl, Bool.and_eq_true, Bool.and_eq_true] at hp
          have hc1 : c = '\n' := (beq_iff_eq.mp hp.1).symm
          have hc2 : c2 = '\n' := (beq_iff_eq.mp hp.2.1).symm
          subst hc1
          subst hc2
          have h1 : occCount (p0 :: pt) ('\n' :: '\n' :: cs2)
              = occCount (p0 :: pt) cs2 := by
            rw [occCount_cons_ne p0 pt (fun he => hp0 he.symm),
              occCount_cons_ne p0 pt (fun he => hp0 he.symm)]
          have h4 := occCount_append_ge p0 pt "</p><p>".data (brkParaF f cs2)
          have h5 := ih cs2
          have h6 : occCount (p0 :: pt) ('\n' :: '\n' :: cs2)
              ≤ occCount (p0 :: pt) ("</p><p>".data ++ brkParaF f cs2) := by omega
          exact h6
      · rw [if_neg hp]
        refine occ_copy_step p0 pt c cs (brkParaF f cs) (ih cs) (fun hq => ?_)
        simp only [pref] at hq
        rw [Bool.and_eq_true] at hq
        have hd := pref_decompose hq.2
        refine pref_cons_of_tail hq.1 ?_
        rw [hd]
        exact brkParaF_pref_preserved pt hptn f _

/-- A header or li line substitution does not lose occurrences of a pattern
whose head differs from every marker character. -/
theorem occ_headerLine (p0 : Char) (pt mark opn cls : List Char)
    (hm : ∀ m ∈ mark, m ≠ p0) (line : List Char) :
    occCount (p0 :: pt) line
      ≤ occCount (p0 :: pt) (headerLine mark opn cls line) := by
  simp only [headerLine]
  by_cases h : pref mark line = true ∧ mark.length < line.length
  · rw [if_pos h]
    have hd := pref_decompose h.1
    have h1 : occCount (p0 :: pt) line
        = occCount (p0 :: pt) (List.drop mark.length line) := by
      conv_lhs => rw [hd]
      exact occCount_skip p0 pt hm _
    have h2 := occCount_append_ge p0 pt (opn ++ List.drop mark.length line) cls
    have h3 := occCount_append_ge p0 pt opn (List.drop mark.length line)
    omega
  · rw [if_neg h]

/-- A line-by-line substitution does not lose occurrences of a terminator-free
pattern when the line transformer does not. -/
theorem occ_mapLinesF (p0 : Char) (pt : List Char) (g : List Char → List Char)
    (hterm : ∀ c ∈ p0 :: pt, isLineTerm c = false)
    (hg : ∀ line, occCount (p0 :: pt) line ≤ occCount (p0 :: pt) (g line)) :
    ∀ (f : Nat) (s : List Char),
      occCount (p0 :: pt) s ≤ occCount (p0 :: pt) (mapLinesF g f s) := by
  intro f
  induction f with
  | zero => intro s; exact Nat.le_refl _
  | succ f ih =>
    intro s
    simp only [mapLinesF]
    cases hbt : breakAtTerm s with
    | mk line rest2 =>
      cases rest2 with
      | nil =>
        have hs : s = line := by
          have h := breakAtTerm_append s
          rw [hbt] at h
          simpa using h
        show occCount (p0 :: pt) s ≤ occCount (p0 :: pt) (g line)
        rw [hs]
        exact hg line
      | cons t rest =>
        have hs : s = line ++ t :: rest := by
          have h := breakAtTerm_append s
          rw [hbt] at h
          exact h
        have ht : isLineTerm t = true := by
          rcases breakAtTerm_rest s with h1 | ⟨t2, r2, h2, h3⟩
          · rw [hbt] at h1
            have h1b : t :: rest = [] := h1
            simp at h1b
          · rw [hbt] at h2
            have h2b : t :: rest = t2 :: r2 := h2
            injection h2b with ha hb
            rw [ha]
            exact h3
        have htp : t ∉ p0 :: pt := fun hm => by
          have h := hterm t hm
          rw [ht] at h
          exact absurd h (by simp)
        have hp0t : t ≠ p0 := fun he => htp (by rw [he]; exact List.mem_cons_self _ _)
        show occCount (p0 :: pt) s
          ≤ occCount (p0 :: pt) (g line ++ t :: mapLinesF g f rest)
        have hin : occCount (p0 :: pt) s
            ≤ occCount (p0 :: pt) line + occCount (p0 :: pt) rest := by
          rw [hs]
          have h1 := occCount_append_cons_le p0 pt htp line rest
          have h2 := occCount_cons_ne p0 pt hp0t rest
          omega
        have h3 := hg line
        have h4 := ih rest
        have h5 := occCount_append_ge p0 pt (g line) (t :: mapLinesF g f rest)
        have h6 : occCount (p0 :: pt) (mapLinesF g f rest)
            ≤ occCount (p0 :: pt) (t :: mapLinesF g f rest) := occCount_cons_ge _ _ _
        omega

/-- The br-stripping list pass does not lose occurrences of a pattern that
contains no less-than sign and whose head occurs in none of the li or br
tokens. -/
theorem occ_stripBrLiF (p0 : Char) (pt : List Char)
    (hlt : '<' ∉ p0 :: pt)
    (hBrLi : ∀ m ∈ brLiT, m ≠ p0)
    (hOpen : ∀ m ∈ liOpenT, m ≠ p0)
    (hClose : ∀ m ∈ liCloseT, m ≠ p0)
    (hBr : ∀ m ∈ brT, m ≠ p0) :
    ∀ (f : Nat) (s : List Char),
      occCount (p0 :: pt) s ≤ occCount (p0 :: pt) (stripBrLiF f s) := by
  have hp0lt : p0 ≠ '<' := fun he => hlt (by rw [← he]; exact List.mem_cons_self _ _)
  have hptlt : '<' ∉ pt := fun hm => hlt (List.mem_cons_of_mem _ hm)
  have hrest : ∀ rest : List Char,
      occCount (p0 :: pt) rest = occCount (p0 :: pt) (dropBr rest) := by
    intro rest
    simp only [dropBr]
    by_cases hbr : pref brT rest = true
    · rw [if_pos hbr]
      have hdr := pref_decompose hbr
      conv_lhs => rw [hdr]
      exact occCount_skip p0 pt hBr _
    · rw [if_neg hbr]
  intro f
  induction f with
  | zero => intro s; exact Nat.le_refl _
  | succ f ih =>
    intro s
    cases s with
    | nil => exact Nat.le_refl _
    | cons c cs =>
      simp only [stripBrLiF]
      by_cases hb : pref brLiT (c :: cs) = true
      · rw [if_pos hb]
        have hd : c :: cs = brLiT ++ List.drop 7 cs := pref_decompose hb
        cases hsp : splitAtFirst liCloseT (List.drop 7 cs) with
        | none =>
          show occCount (p0 :: pt) (c :: cs) ≤ occCount (p0 :: pt) (c :: stripBrLiF f cs)
          have h0 : c :: cs = '<' :: ("br><li>".data ++ List.drop 7 cs) := hd
          injection h0 with hc hrest2
          calc occCount (p0 :: pt) (c :: cs)
              = occCount (p0 :: pt) cs :=
                occCount_cons_ne p0 pt (by rw [hc]; exact fun he => hp0lt he.symm) cs
            _ ≤ occCount (p0 :: pt) (stripBrLiF f cs) := ih cs
            _ ≤ occCount (p0 :: pt) (c :: stripBrLiF f cs) := occCount_cons_ge _ _ _
        | some p =>
          obtain ⟨inner, rest⟩ := p
          show occCount (p0 :: pt) (c :: cs)
            ≤ occCount (p0 :: pt)
                (liOpenT ++ inner ++ liCloseT ++ stripBrLiF f (dropBr rest))
          have hsp2 := splitAtFirst_spec hsp
          have hin : occCount (p0 :: pt) (c :: cs)
              ≤ occCount (p0 :: pt) inner + occCount (p0 :: pt) (dropBr rest) := by
            rw [hd, occCount_skip p0 pt hBrLi _, hsp2,
              show (inner ++ liCloseT) ++ rest
                = inner ++ ('<' :: ("/li>".data ++ rest)) from by
                  rw [List.append_assoc]
                  rfl]
            have hx1 := occCount_append_cons_le p0 pt hlt inner ("/li>".data ++ rest)
            have hx2 : occCount (p0 :: pt) ('<' :: ("/li>".data ++ rest))
                = occCount (p0 :: pt) rest := by
              rw [occCount_cons_ne p0 pt (fun he => hp0lt he.symm)]
              exact occCount_skip p0 pt
                (fun m hm => hClose m (List.mem_cons_of_mem '<' hm)) rest
            have hx3 := hrest rest
            omega
          have h4 := occCount_append_ge p0 pt (liOpenT ++ inner ++ liCloseT)
            (stripBrLiF f (dropBr rest))
          have h5 := occCount_append_ge p0 pt (liOpenT ++ inner) liCloseT
          have h6 := occCount_append_ge p0 pt liOpenT inner
          have h7 := ih (dropBr rest)
          omega
      · rw [if_neg hb]
        by_cases ho : pref liOpenT (c :: cs) = true
        · rw [if_pos ho]
          have hd : c :: cs = liOpenT ++ List.drop 3 cs := pref_decompose ho
          cases hsp : splitAtFirst liCloseT (List.drop 3 cs) with
          | none =>
            show occCount (p0 :: pt) (c :: cs) ≤ occCount (p0 :: pt) (c :: stripBrLiF f cs)
            have h0 : c :: cs = '<' :: ("li>".data ++ List.drop 3 cs) := hd
            injection h0 with hc hrest2
            calc occCount (p0 :: pt) (c :: cs)
                = occCount (p0 :: pt) cs :=
                  occCount_cons_ne p0 pt (by rw [hc]; exact fun he => hp0lt he.symm) cs
              _ ≤ occCount (p0 :: pt) (stripBrLiF f cs) := ih cs
              _ ≤ occCount (p0 :: pt) (c :: stripBrLiF f cs) := occCount_cons_ge _ _ _
          | some p =>
            obtain ⟨inner, rest⟩ := p
            show occCount (p0 :: pt) (c :: cs)
              ≤ occCount (p0 :: pt)
                  (liOpenT ++ inner ++ liCloseT ++ stripBrLiF f (dropBr rest))
            have hsp2 := splitAtFirst_spec hsp
            have hin : occCount (p0 :: pt) (c :: cs)
                ≤ occCount (p0 :: pt) inner + occCount (p0 :: pt) (dropBr rest) := by
              rw [hd, occCount_skip p0 pt hOpen _, hsp2,
                show (inner ++ liCloseT) ++ rest
                  = inner ++ ('<' :: ("/li>".data ++ rest)) from by
                    rw [List.append_assoc]
                    rfl]
              have hx1 := occCount_append_cons_le p0 pt hlt inner ("/li>".data ++ rest)
              have hx2 : occCount (p0 :: pt) ('<' :: ("/li>".data ++ rest))
                  = occCount (p0 :: pt) rest := by
                rw [occCount_cons_ne p0 pt (fun he => hp0lt he.symm)]
                exact occCount_skip p0 pt
                  (fun m hm => hClose m (List.mem_cons_of_mem '<' hm)) rest
              have hx3 := hrest rest
              omega
            have h4 := occCount_append_ge p0 pt (liOpenT ++ inner ++ liCloseT)
              (stripBrLiF f (dropBr rest))
            have h5 := occCount_append_ge p0 pt (liOpenT ++ inner) liCloseT
            have h6 := occCount_append_ge p0 pt liOpenT inner
            have h7 := ih (dropBr rest)
            omega
        · rw [if_neg ho]
          refine occ_copy_step p0 pt c cs (stripBrLiF f cs) (ih cs) (fun hp => ?_)
          simp only [pref] at hp
          rw [Bool.and_eq_true] at hp
          have hdp := pref_decompose hp.2
          refine pref_cons_of_tail hp.1 ?_
          rw [hdp]
          exact stripBrLiF_pref_preserved pt hptlt f _

/-- The grouping loop emits every text entry verbatim, so the occurrences
counted over text entries survive into its output. -/
theorem occ_groupF (p0 : Char) (pt : List Char) :
    ∀ (toks : List LiTok) (b : Bool),
      chunkOcc (p0 :: pt) toks ≤ occCount (p0 :: pt) (groupF b toks) := by
  intro toks
  induction toks with
  | nil => intro b; exact Nat.zero_le _
  | cons tk rest ih =>
    intro b
    cases tk with
    | openLi =>
      simp only [groupF, chunkOcc]
      have h1 := occCount_append_ge p0 pt
        ((if b = true then ([] : List Char) else "<ul>".data) ++ liOpenT) (groupF true rest)
      have h2 := ih true
      have h3 : chunkOcc (p0 :: pt) rest
          ≤ occCount (p0 :: pt)
            (((if b = true then ([] : List Char) else "<ul>".data) ++ liOpenT)
              ++ groupF true rest) := by
        omega
      exact h3
    | closeLi =>
      simp only [groupF, chunkOcc]
      by_cases hn : nextIsLi rest = false ∧ b = true
      · rw [if_pos hn]
        have h1 := occCount_append_ge p0 pt liCloseT ("</ul>".data ++ groupF false rest)
        have h2 := occCount_append_ge p0 pt "</ul>".data (groupF false rest)
        have h3 := ih false
        have h4 : chunkOcc (p0 :: pt) rest
            ≤ occCount (p0 :: pt) (liCloseT ++ ("</ul>".data ++ groupF false rest)) := by
          omega
        exact h4
      · rw [if_neg hn]
        have h1 := occCount_append_ge p0 pt liCloseT (groupF b rest)
        have h3 := ih b
        have h4 : chunkOcc (p0 :: pt) rest
            ≤ occCount (p0 :: pt) (liCloseT ++ groupF b rest) := by
          omega
        exact h4
    | text s2 =>
      simp only [groupF, chunkOcc]
      have h1 := occCount_append_ge p0 pt s2 (groupF b rest)
      have h3 := ih b
      have h4 : occCount (p0 :: pt) s2 + chunkOcc (p0 :: pt) rest
          ≤ occCount (p0 :: pt) (s2 ++ groupF b rest) := by
        omega
      exact h4

/-- The capturing split does not lose occurrences of a pattern that contains
no less-than sign and whose head occurs in neither li token: occurrences never
span a separator, so they land inside the text entries. -/
theorem occ_tokenizeF (p0 : Char) (pt : List Char) (hlt : '<' ∉ p0 :: pt)
    (hOpen : ∀ m ∈ liOpenT, m ≠ p0) (hClose : ∀ m ∈ liCloseT, m ≠ p0) :
    ∀ (f : Nat) (acc s : List Char),
      occCount (p0 :: pt) (acc.reverse ++ s)
        ≤ chunkOcc (p0 :: pt) (tokenizeF f acc s) := by
  have hp0lt : p0 ≠ '<' := fun he => hlt (by rw [← he]; exact List.mem_cons_self _ _)
  intro f
  induction f with
  | zero =>
    intro acc s
    simp only [tokenizeF, chunkOcc]
    omega
  | succ f ih =>
    intro acc s
    cases s with
    | nil =>
      simp only [tokenizeF, chunkOcc]
      rw [List.append_nil]
      omega
    | cons c cs =>
      simp only [tokenizeF]
      by_cases h1 : pref liOpenT (c :: cs) = true
      · rw [if_pos h1]
        simp only [chunkOcc]
        have hd : c :: cs = liOpenT ++ List.drop 3 cs := pref_decompose h1
        have hin : occCount (p0 :: pt) (acc.reverse ++ (c :: cs))
            ≤ occCount (p0 :: pt) acc.reverse
              + occCount (p0 :: pt) (List.drop 3 cs) := by
          rw [hd,
            show acc.reverse ++ (liOpenT ++ List.drop 3 cs)
              = acc.reverse ++ ('<' :: ("li>".data ++ List.drop 3 cs)) from rfl]
          have h2 := occCount_append_cons_le p0 pt hlt acc.reverse
            ("li>".data ++ List.drop 3 cs)
          have h3 : occCount (p0 :: pt) ('<' :: ("li>".data ++ List.drop 3 cs))
              = occCount (p0 :: pt) (List.drop 3 cs) := by
            rw [occCount_cons_ne p0 pt (fun he => hp0lt he.symm)]
            exact occCount_skip p0 pt
              (fun m hm => hOpen m (List.mem_cons_of_mem '<' hm)) _
          omega
        have h4 := ih [] (List.drop 3 cs)
        simp only [List.reverse_nil, List.nil_append] at h4
        omega
      · rw [if_neg h1]
        by_cases h2 : pref liCloseT (c :: cs) = true
        · rw [if_pos h2]
          simp only [chunkOcc]
          have hd : c :: cs = liCloseT ++ List.drop 4 cs := pref_decompose h2
          have hin : occCount (p0 :: pt) (acc.reverse ++ (c :: cs))
              ≤ occCount (p0 :: pt) acc.reverse
                + occCount (p0 :: pt) (List.drop 4 cs) := by
            rw [hd,
              show acc.reverse ++ (liCloseT ++ List.drop 4 cs)
                = acc.reverse ++ ('<' :: ("/li>".data ++ List.drop 4 cs)) from rfl]
            have h3 := occCount_append_cons_le p0 pt hlt acc.reverse
              ("/li>".data ++ List.drop 4 cs)
            have h5 : occCount (p0 :: pt) ('<' :: ("/li>".data ++ List.drop 4 cs))
                = occCount (p0 :: pt) (List.drop 4 cs) := by
              rw [occCount_cons_ne p0 pt (fun he => hp0lt he.symm)]
              exact occCount_skip p0 pt
                (fun m hm => hClose m (List.mem_cons_of_mem '<' hm)) _
            omega
          have h4 := ih [] (List.drop 4 cs)
          simp only [List.reverse_nil, List.nil_append] at h4
          omega
        · rw [if_neg h2]
          have h3 := ih (c :: acc) cs
          rw [show (c :: acc).reverse ++ cs = acc.reverse ++ (c :: cs) from by simp] at h3
          exact h3

/-- The whole post-link tail of the pipeline — inline code, li marking,
paragraph breaks, br substitution, br stripping, tokenise, group, paragraph
wrap — does not lose occurrences of a pattern free of backticks, newlines,
line terminators and less-than signs whose head is no marker character. -/
theorem occ_postStages (p0 : Char) (pt : List Char)
    (htick : '`' ∉ p0 :: pt)
    (hnl : '\n' ∉ p0 :: pt)
    (hlt : '<' ∉ p0 :: pt)
    (hterm : ∀ c ∈ p0 :: pt, isLineTerm c = false)
    (hdash : ∀ m ∈ "- ".data, m ≠ p0)
    (hBrLi : ∀ m ∈ brLiT, m ≠ p0)
    (hOpen : ∀ m ∈ liOpenT, m ≠ p0)
    (hClose : ∀ m ∈ liCloseT, m ≠ p0)
    (hBr : ∀ m ∈ brT, m ≠ p0)
    (x : List Char) :
    occCount (p0 :: pt) x
      ≤ occCount (p0 :: pt) ("<p>".data
          ++ groupF false (tokenizeF
              ((stripBrLiStage (liPassOne (brNl (brkParaStage (liStage (codeStage x)))))).length + 1)
              []
              (stripBrLiStage (liPassOne (brNl (brkParaStage (liStage (codeStage x)))))))
          ++ "</p>".data) := by
  have h1 : occCount (p0 :: pt) x ≤ occCount (p0 :: pt) (codeStage x) := by
    simp only [codeStage]
    exact occ_codeF p0 pt htick _ x
  have h2 : occCount (p0 :: pt) (codeStage x)
      ≤ occCount (p0 :: pt) (liStage (codeStage x)) := by
    simp only [liStage]
    exact occ_mapLinesF p0 pt (headerLine "- ".data "<li>".data "</li>".data) hterm
      (fun line => occ_headerLine p0 pt "- ".data "<li>".data "</li>".data hdash line) _ _
  have h3 : occCount (p0 :: pt) (liStage (codeStage x))
      ≤ occCount (p0 :: pt) (brkParaStage (liStage (codeStage x))) := by
    simp only [brkParaStage]
    exact occ_brkParaF p0 pt hnl _ _
  have h4 : occCount (p0 :: pt) (brkParaStage (liStage (codeStage x)))
      ≤ occCount (p0 :: pt) (brNl (brkParaStage (liStage (codeStage x)))) :=
    occ_brNl p0 pt hnl _
  have h5 : occCount (p0 :: pt) (brNl (brkParaStage (liStage (codeStage x))))
      ≤ occCount (p0 :: pt)
          (stripBrLiStage (liPassOne (brNl (brkParaStage (liStage (codeStage x)))))) := by
    simp only [stripBrLiStage, liPassOne]
    exact occ_stripBrLiF p0 pt hlt hBrLi hOpen hClose hBr _ _
  have h6 : occCount (p0 :: pt)
        (stripBrLiStage (liPassOne (brNl (brkParaStage (liStage (codeStage x))))))
      ≤ chunkOcc (p0 :: pt) (tokenizeF
          ((stripBrLiStage (liPassOne (brNl (brkParaStage (liStage (codeStage x)))))).length + 1)
          []
          (stripBrLiStage (liPassOne (brNl (brkParaStage (liStage (codeStage x))))))) := by
    have h := occ_tokenizeF p0 pt hlt hOpen hClose
      ((stripBrLiStage (liPassOne (brNl (brkParaStage (liStage (codeStage x)))))).length + 1)
      []
      (stripBrLiStage (liPassOne (brNl (brkParaStage (liStage (codeStage x))))))
    simpa using h
  have h7 := occ_groupF p0 pt (tokenizeF
      ((stripBrLiStage (liPassOne (brNl (brkParaStage (liStage (codeStage x)))))).length + 1)
      []
      (stripBrLiStage (liPassOne (brNl (brkParaStage (liStage (codeStage x))))))) false
  have h8 := occCount_append_ge p0 pt
    ("<p>".data ++ groupF false (tokenizeF
        ((stripBrLiStage (liPassOne (brNl (brkParaStage (liStage (codeStage x)))))).length + 1)
        []
        (stripBrLiStage (liPassOne (brNl (brkParaStage (liStage (codeStage x))))))))
    "</p>".data
  have h9 := occCount_append_ge p0 pt "<p>".data
    (groupF false (tokenizeF
        ((stripBrLiStage (liPassOne (brNl (brkParaStage (liStage (codeStage x)))))).length + 1)
        []
        (stripBrLiStage (liPassOne (brNl (brkParaStage (liStage (codeStage x))))))))
  omega

/-- The attribute text of every emitted anchor survives from the link
substitution to the final pipeline output. -/
theorem occ_aMid_final (s : List Char) :
    occCount aMid (mdPostLink s)
      ≤ occCount aMid ("<p>".data ++ mdPipeline s ++ "</p>".data) := by
  simp only [mdPipeline, mdPostLink]
  exact occ_postStages _ _ (by decide) (by decide) (by decide) (by decide) (by decide)
    (by decide) (by decide) (by decide) (by decide) _

/-- Appended occurrence bound specialised to the anchor attribute text. -/
theorem occ_ge_aMid (a b : List Char) :
    occCount aMid a + occCount aMid b ≤ occCount aMid (a ++ b) :=
  occCount_append_ge '"' (" target=\"_blank\" rel=\"noopener\">".data) a b

/-- Any string at all is a link-substitution output with zero anchors. -/
theorem linkOut_zero : ∀ (s : List Char), LinkOut 0 s := by
  intro s
  induction s with
  | nil => exact LinkOut.nil
  | cons c cs ih => exact LinkOut.copy c 0 cs ih

/-- The link substitution always produces copied characters interleaved with
anchors of the exact fixed form, whatever the input. -/
theorem linkF_linkOut : ∀ (f : Nat) (s : List Char), ∃ n, LinkOut n (linkF f s) := by
  intro f
  induction f with
  | zero => intro s; exact ⟨0, linkOut_zero s⟩
  | succ f ih =>
    intro s
    cases s with
    | nil => exact ⟨0, LinkOut.nil⟩
    | cons c cs =>
      simp only [linkF]
      by_cases hc : c = '['
      · rw [if_pos hc]
        cases hlt : linkTry cs with
        | none =>
          obtain ⟨n, hn⟩ := ih cs
          exact ⟨n, LinkOut.copy c n _ hn⟩
        | some p =>
          obtain ⟨txt, url, r3⟩ := p
          obtain ⟨n, hn⟩ := ih r3
          exact ⟨n + 1, LinkOut.anchor url txt n _ hn⟩
      · rw [if_neg hc]
        obtain ⟨n, hn⟩ := ih cs
        exact ⟨n, LinkOut.copy c n _ hn⟩

/-- Each anchor of a link-substitution output contributes one occurrence of
the attribute text carrying the blank target and the no-opener rel. -/
theorem linkOut_le_occ : ∀ (n : Nat) (out : List Char),
    LinkOut n out → n ≤ occCount aMid out := by
  intro n out h
  induction h with
  | nil => exact Nat.zero_le _
  | copy c n rest hrec ih =>
    calc n ≤ occCount aMid rest := ih
      _ ≤ occCount aMid (c :: rest) := occCount_cons_ge _ _ _
  | anchor u t n rest hrec ih =>
    have g1 := occ_ge_aMid (aOpen ++ u ++ aMid ++ t ++ aClose) rest
    have g2 := occ_ge_aMid (aOpen ++ u ++ aMid ++ t) aClose
    have g3 := occ_ge_aMid (aOpen ++ u ++ aMid) t
    have g4 := occ_ge_aMid (aOpen ++ u) aMid
    have hself : occCount aMid aMid = 1 := by decide
    omega

/-- Claim C8: for every markdown link (link text in brackets followed by a
url in parentheses) in the input, the renderer emits an anchor element whose
target attribute is _blank and whose rel attribute is noopener.  First
conjunct: the link substitution turns every match, whatever its surrounding
context and whatever characters the text and url contain, into the exact
fixed anchor form, so its output always consists of copied characters
interleaved with such anchors.  Second conjunct: each of the n anchors
carries one occurrence of the blank-target no-opener attribute text.  Third
conjunct: that attribute text survives every later pipeline stage into the
final renderMarkdown output, for every input.  Fourth conjunct: combining
the three, every input whose link substitution renders n links yields at
least n occurrences of the attribute text in the final output.  Fifth
conjunct: on the specification example the full anchor is produced
verbatim. -/
theorem renderMarkdown_every_link_attrs :
    (∀ (f : Nat) (s : List Char), ∃ n, LinkOut n (linkF f s))
    ∧ (∀ (n : Nat) (out : List Char), LinkOut n out → n ≤ occCount aMid out)
    ∧ (∀ s : String, occCount aMid (mdPostLink s.data)
        ≤ occCount aMid (renderMarkdown s).data)
    ∧ (∀ s : String, ∃ n, LinkOut n (mdPostLink s.data)
        ∧ n ≤ occCount aMid (renderMarkdown s).data)
    ∧ renderMarkdown "[x](http://e.com)"
        = "<p><a href=\"http://e.com\" target=\"_blank\" rel=\"noopener\">x</a></p>" := by
  have hsurv : ∀ s : String,
      occCount aMid (mdPostLink s.data) ≤ occCount aMid (renderMarkdown s).data := by
    intro s
    by_cases hs : s = ""
    · subst hs
      decide
    · simp only [renderMarkdown]
      rw [if_neg hs]
      show occCount aMid (mdPostLink s.data)
        ≤ occCount aMid ("<p>".data ++ mdPipeline s.data ++ "</p>".data)
      exact occ_aMid_final s.data
  refine ⟨linkF_linkOut, linkOut_le_occ, hsurv, fun s => ?_, by rfl⟩
  obtain ⟨n, hn⟩ : ∃ n, LinkOut n (mdPostLink s.data) := by
    simp only [mdPostLink, linkStage]
    exact linkF_linkOut _ _
  exact ⟨n, hn, Nat.le_trans (linkOut_le_occ n _ hn) (hsurv s)⟩

/-- Witness for the C8 theorem: a concrete one-anchor output, discharging the
LinkOut hypothesis of the counting conjunct at a concrete input. -/
theorem renderMarkdown_every_link_attrs_witness :
    LinkOut 1 (aOpen ++ "u".data ++ aMid ++ "x".data ++ aClose ++ [])
    ∧ 1 ≤ occCount aMid (aOpen ++ "u".data ++ aMid ++ "x".data ++ aClose ++ []) := by
  have h : LinkOut 1 (aOpen ++ "u".data ++ aMid ++ "x".data ++ aClose ++ []) :=
    LinkOut.anchor "u".data "x".data 0 [] LinkOut.nil
  exact ⟨h, renderMarkdown_every_link_attrs.2.1 1 _ h⟩

end Edopt
